/-
Verification of the stegasus steganography core (`src/lib.rs`).

The Rust source hides a payload in the least-significant bits of the first
three channels of an RGBA pixel grid, protected by a Reed-Solomon block code
(parity length 32) from the external `reed_solomon` crate.  The pixel grid
itself comes from the external `image` crate after PNG decoding.

Shallow embedding conventions:
* pixels are `List Nat` (channel values, 4 channels for RGBA, each < 256 in
  the real program), the image is the row-major flat list of pixels;
* Rust panics (out-of-bounds pixel access, `unwrap` of errors) are modelled
  as explicit error values of `StegError`;
* machine integers are `Nat` (the quantities involved stay far below the
  `u32` / `u64` / `usize` ranges used by the source);
* the external Reed-Solomon encoder is modelled by a parameter
  `par : List Nat → List Nat` computing the 32 parity bytes of a data slice
  (the source's `reed_solomon::Encoder::encode` produces `data ++ parity`),
  and the external decoder by a parameter
  `correct : List Nat → Except StegError (List Nat)`
  returning the corrected data region of a received block.
-/
import Mathlib

set_option maxRecDepth 8000

deriving instance DecidableEq for Except

namespace Stegasus

/-- Error outcomes of the core.  `insufficientCapacity` models the
`anyhow!("image too small!")` return, `corruptedBlock` the
`message data is corrupted` return of `decode_ecc`, and `pixelOutOfBounds`
the panic of `get_pixel` / `get_pixel_mut` on coordinates outside the
carrier (a Rust panic, modelled as an error value). -/
inductive StegError where
  | insufficientCapacity : StegError
  | corruptedBlock : StegError
  | pixelOutOfBounds : StegError
  deriving DecidableEq

/-- A pixel: the list of its channel values (RGBA: 4 channels). -/
abbrev Pixel := List Nat

/-- A carrier image: row-major flat list of pixels. -/
abbrev Img := List Pixel

/-- `ECC_BLOCK_LEN` from the source. -/
def ECC_BLOCK_LEN : Nat := 255

/-- `ECC_CODE_LEN` from the source (parity bytes per block). -/
def ECC_CODE_LEN : Nat := 32

/-- `ECC_DATA_LEN = ECC_BLOCK_LEN - 32` from the source. -/
def ECC_DATA_LEN : Nat := ECC_BLOCK_LEN - 32

/-- `USIZE_SIZE` from the source (bytes of the length header). -/
def USIZE_SIZE : Nat := 8

/-- Little-endian byte expansion, `k` bytes. `leBytes 8 n` is
`(n as u64).to_le_bytes()` from the source. -/
def leBytes : Nat → Nat → List Nat
  | 0, _ => []
  | k + 1, n => n % 256 :: leBytes k (n / 256)

/-- `(input.len() as u64).to_le_bytes()` from the source. -/
def u64le (n : Nat) : List Nat := leBytes 8 n

/-- `LittleEndian::read_uint(bytes, 8)` from the source, applied to the
first `USIZE_SIZE` bytes of the corrected header. -/
def leRead (bs : List Nat) : Nat := bs.foldr (fun b acc => b + 256 * acc) 0

/-- `reed_solomon::Buffer`: a block, as its data region plus parity (ecc)
region; `.data()` and `.ecc()` of the crate are the two fields. -/
structure RSBuffer where
  data : List Nat
  ecc : List Nat
  deriving DecidableEq

/-- The raw bytes of a block as laid out in the carrier: data then ecc. -/
def RSBuffer.bytes (b : RSBuffer) : List Nat := b.data ++ b.ecc

/-- Number of embedded bits of a block (`8` per byte). -/
def RSBuffer.bits (b : RSBuffer) : Nat := 8 * (b.data.length + b.ecc.length)

/-- Total bit-slots required by a block set (one pixel channel LSB per bit). -/
def totalBits (blocks : List RSBuffer) : Nat := (blocks.map RSBuffer.bits).sum

/-- `encode_ecc` from the source: the header block (8-byte little-endian
payload length, RS-encoded) followed by the RS-encoded consecutive
223-byte chunks of the input.  `par` models the external
`reed_solomon::Encoder` (parity of a data slice); the source's
`encoder.encode(d)` is `⟨d, par d⟩`.  The source's slice
`input[offset..offset+ECC_DATA_LEN]` (or `input[offset..]` for the final
chunk) is `(input.drop offset).take ECC_DATA_LEN`. -/
def encode_ecc (par : List Nat → List Nat) (input : List Nat) : List RSBuffer :=
  let numBlocks := (input.length + ECC_DATA_LEN - 1) / ECC_DATA_LEN
  ⟨u64le input.length, par (u64le input.length)⟩ ::
    (List.range numBlocks).map (fun i =>
      let chunk := (input.drop (i * ECC_DATA_LEN)).take ECC_DATA_LEN
      ⟨chunk, par chunk⟩)

/-- `decode_ecc` from the source: correct each block independently (the
external `reed_solomon::Decoder::correct` is modelled by `correct`,
returning the corrected data region), concatenating the corrected data
regions in order; `?` propagates the first failure. -/
def decode_ecc (correct : List Nat → Except StegError (List Nat))
    (blocks : List (List Nat)) : Except StegError (List Nat) :=
  blocks.foldlM (fun buf b => (correct b).map (fun d => buf ++ d)) []

/-- Modelled from the spec: the external `reed_solomon::Decoder::correct`
(absent from `src/`) on the error-free path — it recomputes the syndrome of
the received block and, when the block is a valid codeword (data followed
by its parity), returns it unchanged; its `.data()` is the first
`len - 32` bytes.  Error-correction beyond the clean path is treated
abstractly by the theorems (see `C4`). -/
def parityCheckCorrect (par : List Nat → List Nat) (b : List Nat) :
    Except StegError (List Nat) :=
  let d := b.take (b.length - ECC_CODE_LEN)
  if b = d ++ par d then .ok d else .error .corruptedBlock

/-- Bit `j` (LSB-first within each byte) of a byte buffer:
`(bytes[j / 8] >> (j % 8)) & 0x1` from the source. -/
def byteBit (bytes : List Nat) (j : Nat) : Nat :=
  (bytes.getD (j / 8) 0 >>> (j % 8)) &&& 1

/-- Channel `c` of the pixel at flat index `idx`. -/
def chanAt (img : Img) (idx c : Nat) : Nat := (img.getD idx []).getD c 0

/-- `pixel[chan] = pixel[chan] & 0xFE | bit` from the source. -/
def lsbWrite (px : Pixel) (c bit : Nat) : Pixel :=
  px.set c ((px.getD c 0 &&& 0xFE) ||| bit)

/-- One embedding loop of `encode_img_inner`: starting at loop counter `j`
with `n` iterations left, write bit `j` of `bytes` to the LSB of channel
`chan` of the pixel at `(x, y) = ((base + j) % width, (base + j) / width)`,
stepping `chan = (chan + 1) % 3`.  `get_pixel_mut` panics (error) unless
`x < width` and `y < height`; the flat row-major index of `(x, y)` is
`y * width + x`. -/
def writeBits (W H : Nat) (bytes : List Nat) (base : Nat) :
    Nat → Nat → Img × Nat → Except StegError (Img × Nat)
  | _, 0, st => .ok st
  | j, n + 1, (img, chan) =>
    let off := base + j
    let x := off % W
    let y := off / W
    if x < W ∧ y < H then
      writeBits W H bytes base (j + 1) n
        (img.set (y * W + x) (lsbWrite (img.getD (y * W + x) []) chan (byteBit bytes j)),
         (chan + 1) % 3)
    else .error .pixelOutOfBounds

/-- The per-block body of `encode_img_inner`'s `for (i, block)` loop: the
data loop (base `block_start`, channel starting at 0) followed by the ecc
loop (base `block_start + data.len() * 8`, channel carried over). -/
def writeBlock (W H : Nat) (b : RSBuffer) (blockStart : Nat) (img : Img) :
    Except StegError Img := do
  let s1 ← writeBits W H b.data blockStart 0 (b.data.length * 8) (img, 0)
  let s2 ← writeBits W H b.ecc (blockStart + b.data.length * 8) 0 (b.ecc.length * 8) s1
  pure s2.1

/-- `encode_img_inner` from the source, after the external PNG decode has
produced the RGBA pixel grid `img` of dimensions `W × H`: build the block
set, reject the carrier when `width * height < ECC_BLOCK_LEN * blocks.len()`
(the source's capacity check), then embed every block `i` at region offset
`i * block_region_size` where `block_region_size = W * H / blocks.len()`.
The final PNG re-encode is external and lossless on the pixel grid. -/
def encode_img_inner (par : List Nat → List Nat) (img : Img) (W H : Nat)
    (input : List Nat) : Except StegError Img :=
  let blocks := encode_ecc par input
  if W * H < ECC_BLOCK_LEN * blocks.length then .error .insufficientCapacity
  else
    let blockRegionSize := W * H / blocks.length
    blocks.enum.foldlM (fun im p => writeBlock W H p.2 (p.1 * blockRegionSize) im) img

/-- One extraction loop of `decode_img_inner`: read the LSB of channel
`chan` of the pixel at `((base + j) % width, (base + j) / width)` and OR it
into bit `j % 8` of byte `j / 8` of the buffer (`block[i / 8] |= bit << (i % 8)`
in the source), stepping `chan = (chan + 1) % 3`. -/
def readBits (W H : Nat) (img : Img) (base : Nat) :
    Nat → Nat → List Nat × Nat → Except StegError (List Nat × Nat)
  | _, 0, st => .ok st
  | j, n + 1, (buf, chan) =>
    let off := base + j
    let x := off % W
    let y := off / W
    if x < W ∧ y < H then
      let bit := chanAt img (y * W + x) chan &&& 1
      readBits W H img base (j + 1) n
        (buf.set (j / 8) (buf.getD (j / 8) 0 ||| (bit <<< (j % 8))), (chan + 1) % 3)
    else .error .pixelOutOfBounds

/-- The header phase of `decode_img_inner`: read the first
`(USIZE_SIZE + ECC_CODE_LEN) * 8` bit-slots into a 40-byte buffer, correct
it as a single block, and read the payload length from the first
`USIZE_SIZE` corrected bytes, little-endian. -/
def readHeaderLen (correct : List Nat → Except StegError (List Nat))
    (img : Img) (W H : Nat) : Except StegError Nat := do
  let s ← readBits W H img 0 0 ((USIZE_SIZE + ECC_CODE_LEN) * 8)
    (List.replicate (USIZE_SIZE + ECC_CODE_LEN) 0, 0)
  let decoded ← decode_ecc correct [s.1]
  pure (leRead (decoded.take USIZE_SIZE))

/-- The data phase of `decode_img_inner`: the `for i in 1..num_blocks + 1`
loop.  `i` is the region index, `count` the remaining iterations,
`dataLeft` the running `data_left`; each iteration reads
`(block_data_len + ECC_CODE_LEN) * 8` bit-slots starting at flat offset
`i * blockRegionSize`, where `block_data_len = min data_left ECC_DATA_LEN`. -/
def readBlocks (W H : Nat) (img : Img) (blockRegionSize : Nat) :
    Nat → Nat → Nat → Except StegError (List (List Nat))
  | _, 0, _ => .ok []
  | i, count + 1, dataLeft =>
    let bdl := if dataLeft > ECC_DATA_LEN then ECC_DATA_LEN else dataLeft
    do
      let s ← readBits W H img (i * blockRegionSize) 0 ((bdl + ECC_CODE_LEN) * 8)
        (List.replicate (bdl + ECC_CODE_LEN) 0, 0)
      let rest ← readBlocks W H img blockRegionSize (i + 1) count (dataLeft - bdl)
      pure (s.1 :: rest)

/-- `decode_img_inner` from the source, after the external PNG decode has
produced the pixel grid: recover the payload length from the header block,
derive `num_blocks = ceil(data_len / ECC_DATA_LEN)` and
`block_region_size = W * H / (num_blocks + 1)`, read the data blocks at
their region offsets, and correct-and-concatenate them. -/
def decode_img_inner (correct : List Nat → Except StegError (List Nat))
    (img : Img) (W H : Nat) : Except StegError (List Nat) := do
  let dataLen ← readHeaderLen correct img W H
  let numBlocks := (dataLen + ECC_DATA_LEN - 1) / ECC_DATA_LEN
  let blockRegionSize := W * H / (numBlocks + 1)
  let blocks ← readBlocks W H img blockRegionSize 1 numBlocks dataLen
  decode_ecc correct blocks

/-- `encode_img` from the source (the `#[wasm_bindgen]` export, lib.rs
lines 16–20): it installs the panic hook (`console_error_panic_hook`'s
`set_once`, a side-effect-free no-op for the result value) and `unwrap`s
`encode_img_inner` — on an inner error it panics instead of returning an
error value.  The panic is modelled as `none`; as with `encode_img_inner`,
the carrier appears as its already-decoded pixel grid (the PNG byte layer
is external). -/
def encode_img (par : List Nat → List Nat) (img : Img) (W H : Nat)
    (input : List Nat) : Option Img :=
  (encode_img_inner par img W H input).toOption

/-- `decode_img` from the source (the `#[wasm_bindgen]` export, lib.rs
lines 22–26): it installs the panic hook and `unwrap`s
`decode_img_inner` — on an inner error it panics instead of returning an
error value.  The panic is modelled as `none`; the carrier appears as its
already-decoded pixel grid (the PNG byte layer is external). -/
def decode_img (correct : List Nat → Except StegError (List Nat))
    (img : Img) (W H : Nat) : Option (List Nat) :=
  (decode_img_inner correct img W H).toOption

/-- Modelled from the spec: the Spiral Index Mapper's visiting order (the
`spiral_coord` function is part of the repository's core per spec §4.2 but
is absent from `src/`; only the spec describes it).  The list of cells of a
`W × H` grid in inward spiral order: start at `(0, 0)`, walk down the left
edge, across the bottom edge, up the right edge, across the top edge back
to `(1, 0)`, then traverse the inner `(W-2) × (H-2)` rectangle (shifted by
`(1, 1)`) the same way; a 1-wide or 1-tall residual strip is traversed as a
single run.  `ringList w h` is the outermost ring of a `(w+2) × (h+2)`
grid in that order: down the left edge `(0, 0) .. (0, h+1)`, across the
bottom edge `(1, h+1) .. (w+1, h+1)`, up the right edge
`(w+1, h) .. (w+1, 0)`, across the top edge `(w, 0) .. (1, 0)`. -/
def ringList (w h : Nat) : List (Nat × Nat) :=
  (List.range (h + 2)).map (fun y => (0, y)) ++
    ((List.range (w + 1)).map (fun t => (t + 1, h + 1)) ++
      ((List.range (h + 1)).map (fun t => (w + 1, h - t)) ++
        (List.range w).map (fun t => (w - t, 0))))

/-- The inward spiral visiting order of a `W × H` grid; see `ringList`. -/
def spiralList : Nat → Nat → List (Nat × Nat)
  | 0, _ => []
  | _ + 1, 0 => []
  | 1, h + 1 => (List.range (h + 1)).map (fun y => (0, y))
  | w + 2, 1 => (List.range (w + 2)).map (fun x => (x, 0))
  | w + 2, h + 2 => ringList w h ++ (spiralList w h).map (fun p => (p.1 + 1, p.2 + 1))

/-- Modelled from the spec: `spiral_coord(width, height, i)` — the `i`-th
cell of the inward spiral traversal of a `width × height` grid, `None` when
`i` is out of range. -/
def spiral_coord (width height i : Nat) : Option (Nat × Nat) :=
  (spiralList width height)[i]?

/-- Modelled from the spec: the per-block corruption measure of §4.1/§8 —
the number of corrupted byte positions of a received block relative to the
codeword that was sent. -/
def byteDiff (xs ys : List Nat) : Nat :=
  (xs.zip ys).countP (fun p => p.1 != p.2)

/-- Modelled from the spec: a concrete block corrector for a 1-data-byte
systematic code with 32 repeated parity bytes (33 copies of the byte in
all), correcting up to ⌊32/2⌋ = 16 corrupted bytes by majority; it
instantiates the corrector contract of `C4` at its full correction
capability.  (The production corrector is the external `reed_solomon`
crate's syndrome decoder.) -/
def repDecode (r : List Nat) : Except StegError (List Nat) :=
  match r.find? (fun b => 17 ≤ r.count b) with
  | some b => .ok [b]
  | none => .error .corruptedBlock

/-- The intermediate byte buffer of an extraction loop after the first `j`
bits have been ORed in: bytes before `j / 8` are complete, byte `j / 8`
holds its low `j % 8` bits, later bytes are still zero.  (`B` is the byte
vector being reconstructed; this is a proof device for `readBits`.) -/
def bytesUpTo (B : List Nat) (j : Nat) : List Nat :=
  (List.range B.length).map (fun m =>
    if m < j / 8 then B.getD m 0
    else if m = j / 8 then B.getD m 0 % 2 ^ (j % 8)
    else 0)

/-! ### Basic facts about the byte-level helpers -/

theorem leBytes_length (k n : Nat) : (leBytes k n).length = k := by
  induction k generalizing n with
  | zero => rfl
  | succ k ih => simp [leBytes, ih]

theorem leBytes_lt (k n : Nat) : ∀ b ∈ leBytes k n, b < 256 := by
  induction k generalizing n with
  | zero => intro b hb; simp [leBytes] at hb
  | succ k ih =>
    intro b hb
    simp only [leBytes, List.mem_cons] at hb
    rcases hb with h | h
    · omega
    · exact ih _ _ h

theorem leRead_leBytes (k n : Nat) (h : n < 2 ^ (8 * k)) :
    leRead (leBytes k n) = n := by
  induction k generalizing n with
  | zero =>
    simp only [Nat.mul_zero, Nat.pow_zero, Nat.lt_one_iff] at h
    simp [h, leBytes, leRead]
  | succ k ih =>
    have hdiv : n / 256 < 2 ^ (8 * k) := by
      rw [Nat.div_lt_iff_lt_mul (by norm_num)]
      calc n < 2 ^ (8 * (k + 1)) := h
        _ = 2 ^ (8 * k) * 256 := by ring
    simp only [leBytes, leRead, List.foldr_cons]
    have : leRead (leBytes k (n / 256)) = n / 256 := ih _ hdiv
    simp only [leRead] at this
    rw [this]
    omega

/-- Splitting the payload into consecutive `ECC_DATA_LEN`-byte chunks and
concatenating them back yields the payload. -/
theorem chunksFlatten (n : Nat) :
    ∀ l : List Nat, l.length ≤ ECC_DATA_LEN * n →
      ((List.range n).map
        (fun i => (l.drop (i * ECC_DATA_LEN)).take ECC_DATA_LEN)).flatten = l := by
  induction n with
  | zero =>
    intro l hl
    simp only [Nat.mul_zero, Nat.le_zero, List.length_eq_zero] at hl
    simp [hl]
  | succ n ih =>
    intro l hl
    have hE : ECC_DATA_LEN = 223 := rfl
    rw [List.range_succ_eq_map]
    simp only [List.map_cons, List.map_map, List.flatten_cons, Nat.zero_mul, List.drop_zero]
    have hcomp : ∀ i : Nat,
        (l.drop ((i + 1) * ECC_DATA_LEN)).take ECC_DATA_LEN
          = ((l.drop ECC_DATA_LEN).drop (i * ECC_DATA_LEN)).take ECC_DATA_LEN := by
      intro i
      rw [List.drop_drop]
      have h1 : (i + 1) * ECC_DATA_LEN = ECC_DATA_LEN + i * ECC_DATA_LEN := by
        rw [hE]
        omega
      rw [h1]
    have hrest :
        ((List.range n).map (Nat.succ) |>.map
            (fun i => (l.drop (i * ECC_DATA_LEN)).take ECC_DATA_LEN)).flatten
          = l.drop ECC_DATA_LEN := by
      rw [List.map_map]
      have : ((fun i => (l.drop (i * ECC_DATA_LEN)).take ECC_DATA_LEN) ∘ Nat.succ)
          = fun i => ((l.drop ECC_DATA_LEN).drop (i * ECC_DATA_LEN)).take ECC_DATA_LEN := by
        funext i
        simp only [Function.comp]
        exact hcomp i
      rw [this]
      apply ih
      simp only [List.length_drop, hE]
      rw [hE] at hl
      omega
    rw [List.map_map] at hrest
    rw [hrest, List.take_append_drop]

/-! ### Pixel-level helpers -/

/-- A well-formed carrier for dimensions `W × H`: row-major pixel count
`W * H`, four channels per pixel (RGBA), channel values are bytes. -/
def GoodImg (W H : Nat) (img : Img) : Prop :=
  img.length = W * H ∧ (∀ px ∈ img, px.length = 4) ∧
    (∀ px ∈ img, ∀ v ∈ px, v < 256)

theorem chanAt_set_ne (img : Img) (i : Nat) (px : Pixel) (idx c : Nat)
    (h : idx ≠ i) : chanAt (img.set i px) idx c = chanAt img idx c := by
  simp only [chanAt, List.getD_eq_getElem?_getD]
  rw [List.getElem?_set_ne (by omega)]

theorem chanAt_set_self (img : Img) (i : Nat) (px : Pixel) (c : Nat)
    (h : i < img.length) : chanAt (img.set i px) i c = px.getD c 0 := by
  simp only [chanAt, List.getD_eq_getElem?_getD]
  rw [List.getElem?_set_eq h]
  rfl

theorem lsbWrite_getD_self (px : Pixel) (c bit : Nat) (h : c < px.length) :
    (lsbWrite px c bit).getD c 0 = (px.getD c 0 &&& 254) ||| bit := by
  simp only [lsbWrite, List.getD_eq_getElem?_getD]
  rw [List.getElem?_set_eq h]
  rfl

theorem lsbWrite_getD_ne (px : Pixel) (c c' bit : Nat) (h : c' ≠ c) :
    (lsbWrite px c bit).getD c' 0 = px.getD c' 0 := by
  simp only [lsbWrite, List.getD_eq_getElem?_getD]
  rw [List.getElem?_set_ne (by omega)]

theorem lsbWrite_length (px : Pixel) (c bit : Nat) :
    (lsbWrite px c bit).length = px.length := by
  simp [lsbWrite]

/-- The byte-level LSB-overwrite facts, for byte-sized channel values and a
single bit: the written channel's LSB is the bit, its higher bits are
unchanged, and it stays a byte. -/
theorem lsb_facts : ∀ y < 256, ∀ b ≤ 1,
    (((y &&& 254) ||| b) &&& 1 = b) ∧ (((y &&& 254) ||| b) >>> 1 = y >>> 1) ∧
    (((y &&& 254) ||| b) < 256) ∧ (((y &&& 254) ||| b) / 2 = y / 2) ∧
    (y ≤ ((y &&& 254) ||| b) + 1 ∧ ((y &&& 254) ||| b) ≤ y + 1) := by
  decide

theorem byteBit_le_one (bytes : List Nat) (j : Nat) : byteBit bytes j ≤ 1 :=
  Nat.and_le_right

theorem GoodImg.chanAt_lt (W H : Nat) (img : Img) (hg : GoodImg W H img)
    (idx c : Nat) (hidx : idx < W * H) (hc : c < 4) : chanAt img idx c < 256 := by
  obtain ⟨hlen, hpx, hval⟩ := hg
  have hi : idx < img.length := by omega
  have hmem : img[idx] ∈ img := List.getElem_mem hi
  have h4 : img[idx].length = 4 := hpx _ hmem
  have hcc : c < img[idx].length := by omega
  rw [chanAt, List.getD_eq_getElem img [] hi, List.getD_eq_getElem _ 0 hcc]
  exact hval _ hmem _ (List.getElem_mem hcc)

/-! ### The embedding loop: success, frame and written values -/

/-- Characterization of `writeBits`: when every touched flat offset is in
range, the loop succeeds, preserves well-formedness, steps the channel by
`n mod 3`, rewrites the LSB of channel `(chan + t) % 3` at flat offset
`base + j + t` to bit `j + t` of `bytes`, and leaves every other
pixel-channel slot unchanged. -/
theorem writeBits_spec (W H : Nat) (bytes : List Nat) (base : Nat) :
    ∀ (n j chan : Nat) (img : Img), GoodImg W H img → chan < 3 → 0 < W →
    base + j + n ≤ W * H →
    ∃ img', writeBits W H bytes base j n (img, chan) = .ok (img', (chan + n) % 3) ∧
      GoodImg W H img' ∧
      (∀ idx c, (idx < base + j ∨ base + j + n ≤ idx ∨
          c ≠ (chan + (idx - (base + j))) % 3) →
        chanAt img' idx c = chanAt img idx c) ∧
      (∀ t, t < n →
        chanAt img' (base + j + t) ((chan + t) % 3)
          = ((chanAt img (base + j + t) ((chan + t) % 3)) &&& 254)
              ||| byteBit bytes (j + t)) := by
  intro n
  induction n with
  | zero =>
    intro j chan img hg hchan hW hbound
    refine ⟨img, ?_, hg, fun idx c _ => rfl, fun t ht => absurd ht (by omega)⟩
    simp [writeBits, Nat.mod_eq_of_lt hchan]
  | succ n ih =>
    intro j chan img hg hchan hW hbound
    have hoff : base + j < W * H := by omega
    have hx : (base + j) % W < W := Nat.mod_lt _ hW
    have hy : (base + j) / W < H := by
      rw [Nat.div_lt_iff_lt_mul hW, Nat.mul_comm]
      omega
    have hflat : (base + j) / W * W + (base + j) % W = base + j := by
      have h0 := Nat.div_add_mod (base + j) W
      rw [Nat.mul_comm ((base + j) / W) W]
      omega
    have hcond : (base + j) % W < W ∧ (base + j) / W < H := ⟨hx, hy⟩
    have hidximg : base + j < img.length := by
      rw [hg.1]
      exact hoff
    -- the single write
    set px := img.getD ((base + j) / W * W + (base + j) % W) [] with hpx
    have hpxeq : px = img.getD (base + j) [] := by rw [hpx, hflat]
    have hpxmem : px ∈ img := by
      rw [hpxeq, List.getD_eq_getElem img [] hidximg]
      exact List.getElem_mem hidximg
    have hpxlen : px.length = 4 := hg.2.1 _ hpxmem
    set img1 := img.set ((base + j) / W * W + (base + j) % W)
      (lsbWrite px chan (byteBit bytes j)) with himg1
    have himg1' : img1 = img.set (base + j) (lsbWrite px chan (byteBit bytes j)) := by
      rw [himg1, hflat]
    have hg1 : GoodImg W H img1 := by
      refine ⟨by rw [himg1']; simp [List.length_set, hg.1], ?_, ?_⟩
      · intro q hq
        rw [himg1'] at hq
        rcases List.mem_or_eq_of_mem_set hq with h | h
        · exact hg.2.1 _ h
        · rw [h, lsbWrite_length]
          exact hpxlen
      · intro q hq v hv
        rw [himg1'] at hq
        rcases List.mem_or_eq_of_mem_set hq with h | h
        · exact hg.2.2 _ h _ hv
        · rw [h] at hv
          simp only [lsbWrite] at hv
          rcases List.mem_or_eq_of_mem_set hv with h2 | h2
          · exact hg.2.2 _ hpxmem _ h2
          · have hylt : px.getD chan 0 < 256 := by
              have : px.getD chan 0 = px[chan] := List.getD_eq_getElem px 0 (by omega)
              rw [this]
              exact hg.2.2 _ hpxmem _ (List.getElem_mem (by omega))
            rw [h2]
            exact (lsb_facts _ hylt _ (byteBit_le_one bytes j)).2.2.1
    -- frame of the single write
    have hframe1 : ∀ idx c, idx ≠ base + j ∨ c ≠ chan →
        chanAt img1 idx c = chanAt img idx c := by
      intro idx c hor
      rcases hor with h | h
      · rw [himg1', chanAt_set_ne _ _ _ _ _ h]
      · by_cases hidx : idx = base + j
        · subst hidx
          rw [himg1', chanAt_set_self _ _ _ _ hidximg, lsbWrite_getD_ne _ _ _ _ h]
          rw [chanAt, hpxeq]
        · rw [himg1', chanAt_set_ne _ _ _ _ _ hidx]
    have hwrite1 : chanAt img1 (base + j) chan
        = ((chanAt img (base + j) chan) &&& 254) ||| byteBit bytes j := by
      rw [himg1', chanAt_set_self _ _ _ _ hidximg,
        lsbWrite_getD_self _ _ _ (by omega)]
      rw [chanAt, hpxeq]
    obtain ⟨img', heq, hg', hframe, hwrites⟩ :=
      ih (j + 1) ((chan + 1) % 3) img1 hg1 (Nat.mod_lt _ (by omega)) hW (by omega)
    refine ⟨img', ?_, hg', ?_, ?_⟩
    · show writeBits W H bytes base j (n + 1) (img, chan) = _
      rw [writeBits, if_pos hcond]
      rw [heq]
      congr 2
      omega
    · -- frame
      intro idx c hc
      have hstep : chanAt img' idx c = chanAt img1 idx c := by
        apply hframe
        rcases hc with h | h | h
        · left; omega
        · right; left; omega
        · by_cases hidx : idx = base + j
          · left; omega
          · by_cases hlt : idx < base + j
            · left; omega
            · by_cases hge : base + j + 1 + n ≤ idx
              · right; left; exact hge
              · right; right; omega
      rw [hstep]
      apply hframe1
      rcases hc with h | h | h
      · left; omega
      · left; omega
      · by_cases hidx : idx = base + j
        · right; omega
        · left; exact hidx
    · -- written values
      intro t ht
      match t with
      | 0 =>
        have hfr : chanAt img' (base + j) chan = chanAt img1 (base + j) chan := by
          apply hframe
          left
          omega
        simpa [Nat.mod_eq_of_lt hchan] using hfr.trans hwrite1
      | t' + 1 =>
        have h1 := hwrites t' (by omega)
        have hidx : base + (j + 1) + t' = base + j + (t' + 1) := by omega
        have hch : ((chan + 1) % 3 + t') % 3 = (chan + (t' + 1)) % 3 := by
          omega
        have hjj : j + 1 + t' = j + (t' + 1) := by omega
        rw [hidx, hch, hjj] at h1
        rw [h1]
        congr 2
        apply hframe1
        left
        omega

theorem byteBit_append_left (d e : List Nat) (j : Nat) (h : j < 8 * d.length) :
    byteBit (d ++ e) j = byteBit d j := by
  rw [byteBit, byteBit, List.getD_append _ _ _ _ (by omega)]

theorem byteBit_append_right (d e : List Nat) (j : Nat) :
    byteBit (d ++ e) (8 * d.length + j) = byteBit e j := by
  rw [byteBit, byteBit]
  have h1 : (8 * d.length + j) / 8 = d.length + j / 8 := by omega
  have h2 : (8 * d.length + j) % 8 = j % 8 := by omega
  rw [h1, h2]
  congr 2
  simp [List.getD_eq_getElem?_getD, List.getElem?_append_right]

/-- Characterization of the two per-block embedding loops of
`encode_img_inner` as a single write of the block's `data ++ ecc` bytes:
success, frame, and written LSBs. -/
theorem writeBlock_spec (W H : Nat) (b : RSBuffer) (blockStart : Nat) (img : Img)
    (hg : GoodImg W H img) (hW : 0 < W)
    (hbound : blockStart + b.bits ≤ W * H) :
    ∃ img', writeBlock W H b blockStart img = .ok img' ∧ GoodImg W H img' ∧
      (∀ idx c, (idx < blockStart ∨ blockStart + b.bits ≤ idx ∨
          c ≠ (idx - blockStart) % 3) →
        chanAt img' idx c = chanAt img idx c) ∧
      (∀ t, t < b.bits →
        chanAt img' (blockStart + t) (t % 3)
          = ((chanAt img (blockStart + t) (t % 3)) &&& 254)
              ||| byteBit b.bytes t) := by
  have hbits : b.bits = 8 * (b.data.length + b.ecc.length) := rfl
  obtain ⟨img1, heq1, hg1, hframe1, hwrites1⟩ :=
    writeBits_spec W H b.data blockStart (b.data.length * 8) 0 0 img hg (by omega) hW
      (by omega)
  obtain ⟨img2, heq2, hg2, hframe2, hwrites2⟩ :=
    writeBits_spec W H b.ecc (blockStart + b.data.length * 8) (b.ecc.length * 8) 0
      ((0 + b.data.length * 8) % 3) img1 hg1 (Nat.mod_lt _ (by omega)) hW (by omega)
  refine ⟨img2, ?_, hg2, ?_, ?_⟩
  · rw [writeBlock, heq1]
    show (writeBits W H b.ecc _ 0 _ (img1, _)).bind _ = _
    rw [heq2]
    rfl
  · intro idx c hc
    have hs2 : chanAt img2 idx c = chanAt img1 idx c := by
      apply hframe2
      rcases hc with h | h | h
      · left; omega
      · right; left; omega
      · by_cases h1 : idx < blockStart + 0
        · left; omega
        · by_cases h2 : blockStart + 0 + b.data.length * 8 + b.ecc.length * 8 ≤ idx
          · right; left; omega
          · by_cases h3 : idx < blockStart + b.data.length * 8
            · left; omega
            · right; right; omega
    rw [hs2]
    apply hframe1
    rcases hc with h | h | h
    · left; omega
    · right; left; omega
    · by_cases h1 : idx < blockStart
      · left; exact h1
      · by_cases h2 : blockStart + 0 + b.data.length * 8 ≤ idx
        · right; left; omega
        · right; right; omega
  · intro t ht
    by_cases hdata : t < b.data.length * 8
    · have hw := hwrites1 t (by omega)
      have hfr : chanAt img2 (blockStart + t) (t % 3)
          = chanAt img1 (blockStart + t) (t % 3) := by
        apply hframe2
        left
        omega
      rw [hfr]
      simp only [Nat.zero_add, Nat.add_zero] at hw
      rw [hw, RSBuffer.bytes, byteBit_append_left _ _ _ (by omega)]
    · obtain ⟨t', rfl⟩ : ∃ t', t = b.data.length * 8 + t' := ⟨t - b.data.length * 8, by omega⟩
      have hw := hwrites2 t' (by omega)
      have hch : ((0 + b.data.length * 8) % 3 + t') % 3 = (b.data.length * 8 + t') % 3 := by
        omega
      have hidx : blockStart + b.data.length * 8 + 0 + t' = blockStart + (b.data.length * 8 + t') := by
        omega
      rw [hch, hidx] at hw
      simp only [Nat.zero_add, Nat.add_zero] at hw
      have hfr : chanAt img1 (blockStart + (b.data.length * 8 + t'))
          ((b.data.length * 8 + t') % 3)
          = chanAt img (blockStart + (b.data.length * 8 + t'))
              ((b.data.length * 8 + t') % 3) := by
        apply hframe1
        right; left
        omega
      rw [hw, hfr, RSBuffer.bytes]
      have h8 : b.data.length * 8 + t' = 8 * b.data.length + t' := by omega
      rw [h8, byteBit_append_right]

/-- Characterization of the `for (i, block) in blocks.iter().enumerate()`
embedding loop, starting at region index `k`: when every block's bit count
fits in one region (`b.bits ≤ rs`) and the regions lie inside the carrier,
the fold succeeds; block `m` of the remaining list occupies LSB slots
`(k+m)*rs + t`, channel `t % 3`, and every other slot is untouched. -/
theorem encodeBlocks_spec (W H rs : Nat) :
    ∀ (bs : List RSBuffer) (k : Nat) (img : Img), GoodImg W H img → 0 < W →
    (∀ b ∈ bs, b.bits ≤ rs) →
    (k + bs.length) * rs ≤ W * H →
    ∃ img', (List.enumFrom k bs).foldlM
        (fun im p => writeBlock W H p.2 (p.1 * rs) im) img = .ok img' ∧
      GoodImg W H img' ∧
      (∀ idx c,
        (∀ m, m < bs.length → ∀ t, t < (bs.getD m ⟨[], []⟩).bits →
          ¬(idx = (k + m) * rs + t ∧ c = t % 3)) →
        chanAt img' idx c = chanAt img idx c) ∧
      (∀ m, m < bs.length → ∀ t, t < (bs.getD m ⟨[], []⟩).bits →
        chanAt img' ((k + m) * rs + t) (t % 3)
          = ((chanAt img ((k + m) * rs + t) (t % 3)) &&& 254)
              ||| byteBit (bs.getD m ⟨[], []⟩).bytes t) := by
  intro bs
  induction bs with
  | nil =>
    intro k img hg hW _ _
    exact ⟨img, rfl, hg, fun idx c _ => rfl, fun m hm => absurd hm (by simp)⟩
  | cons b bs ih =>
    intro k img hg hW hfit hbound
    have hmul : (k + 1) * rs ≤ (k + (b :: bs).length) * rs :=
      Nat.mul_le_mul_right _ (by simp only [List.length_cons]; omega)
    have hsplit : (k + 1) * rs = k * rs + rs := by
      rw [Nat.add_mul, Nat.one_mul]
    have hbfit : b.bits ≤ rs := hfit b (by simp)
    obtain ⟨img1, heq1, hg1, hframe1, hwrites1⟩ :=
      writeBlock_spec W H b (k * rs) img hg hW (by omega)
    have hlen : (b :: bs).length = bs.length + 1 := rfl
    have hbound' : (k + 1 + bs.length) * rs ≤ W * H := by
      have : k + 1 + bs.length = k + (b :: bs).length := by simp; omega
      rw [this]
      exact hbound
    obtain ⟨img', heq2, hg2, hframe2, hwrites2⟩ :=
      ih (k + 1) img1 hg1 hW (fun b' hb' => hfit b' (by simp [hb'])) hbound'
    refine ⟨img', ?_, hg2, ?_, ?_⟩
    · show (List.enumFrom k (b :: bs)).foldlM _ img = _
      rw [show List.enumFrom k (b :: bs) = (k, b) :: List.enumFrom (k + 1) bs from rfl]
      rw [List.foldlM_cons]
      show (writeBlock W H b (k * rs) img).bind _ = _
      rw [heq1]
      exact heq2
    · intro idx c hnot
      have hs2 : chanAt img' idx c = chanAt img1 idx c := by
        apply hframe2
        intro m hm t ht
        have := hnot (m + 1) (by simpa using Nat.succ_lt_succ hm) t
          (by simpa using ht)
        intro ⟨hidx, hcc⟩
        apply this
        refine ⟨?_, hcc⟩
        rw [hidx]
        have he : k + 1 + m = k + (m + 1) := by omega
        rw [he]
      rw [hs2]
      apply hframe1
      by_cases h1 : idx < k * rs
      · left; exact h1
      · by_cases h2 : k * rs + b.bits ≤ idx
        · right; left; exact h2
        · right; right
          intro hcc
          exact hnot 0 (by simp) (idx - k * rs)
            (by simp only [List.getD_cons_zero]; omega)
            ⟨by rw [Nat.add_zero]; omega, hcc⟩
    · intro m hm t ht
      match m with
      | 0 =>
        simp only [List.getD_cons_zero] at ht ⊢
        have hw := hwrites1 t ht
        have hfr : chanAt img' (k * rs + t) (t % 3)
            = chanAt img1 (k * rs + t) (t % 3) := by
          apply hframe2
          intro m' hm' t' ht'
          intro ⟨hidx, _⟩
          have : (k + 1) * rs ≤ (k + 1 + m') * rs := Nat.mul_le_mul_right _ (by omega)
          omega
        rw [Nat.add_zero, hfr, hw]
      | m' + 1 =>
        simp only [List.getD_cons_succ] at ht ⊢
        have hw := hwrites2 m' (by simpa using Nat.lt_of_succ_lt_succ (by simpa using hm)) t ht
        have hidx : k + 1 + m' = k + (m' + 1) := by omega
        rw [hidx] at hw
        rw [hw]
        congr 2
        apply hframe1
        right; left
        have : (k + 1) * rs ≤ (k + (m' + 1)) * rs := Nat.mul_le_mul_right _ (by omega)
        omega

/-! ### Success- and error-shape facts about the embedding loops

These hold for *any* run of the loops, with no fit or bounds hypotheses:
a failing run can only fail with the out-of-bounds pixel panic, and a
successful run only ever applies LSB overwrites at slots the placement
rule assigns to some block. -/

/-- Monadic glue: a successful `Except` bind decomposes. -/
theorem except_bind_ok {ε α β : Type} (x : Except ε α) (f : α → Except ε β) (b : β)
    (h : x >>= f = .ok b) : ∃ a, x = .ok a ∧ f a = .ok b := by
  cases x with
  | error e => exact absurd h (by simp [Bind.bind, Except.bind])
  | ok a => exact ⟨a, rfl, h⟩

/-- Monadic glue: a failing `Except` bind fails in its head or its tail. -/
theorem except_bind_err {ε α β : Type} (x : Except ε α) (f : α → Except ε β) (e : ε)
    (h : x >>= f = .error e) : x = .error e ∨ ∃ a, x = .ok a ∧ f a = .error e := by
  cases x with
  | error e1 => exact Or.inl (by simpa [Bind.bind, Except.bind] using h)
  | ok a => exact Or.inr ⟨a, rfl, h⟩

/-- `writeBits` can only fail with the out-of-bounds pixel panic. -/
theorem writeBits_error_oob (W H : Nat) (bytes : List Nat) (base : Nat) :
    ∀ (n j : Nat) (st : Img × Nat) (e : StegError),
    writeBits W H bytes base j n st = .error e → e = .pixelOutOfBounds := by
  intro n
  induction n with
  | zero =>
    intro j st e h
    exact absurd h (by simp [writeBits])
  | succ n ih =>
    intro j st e h
    obtain ⟨img, chan⟩ := st
    by_cases hc : (base + j) % W < W ∧ (base + j) / W < H
    · rw [writeBits, if_pos hc] at h
      exact ih (j + 1) _ e h
    · rw [writeBits, if_neg hc] at h
      injection h with h1
      exact h1.symm

/-- `writeBlock` can only fail with the out-of-bounds pixel panic. -/
theorem writeBlock_error_oob (W H : Nat) (b : RSBuffer) (s : Nat) (img : Img)
    (e : StegError) (h : writeBlock W H b s img = .error e) :
    e = .pixelOutOfBounds := by
  rw [writeBlock] at h
  rcases except_bind_err _ _ _ h with h1 | ⟨s1, _, h2⟩
  · exact writeBits_error_oob W H b.data s _ _ _ _ h1
  · rcases except_bind_err _ _ _ h2 with h3 | ⟨s2, _, h4⟩
    · exact writeBits_error_oob W H b.ecc _ _ _ _ _ h3
    · exact absurd h4 (by simp [pure, Except.pure])

/-- The enumerated embedding fold can only fail with the out-of-bounds
pixel panic; in particular it never reports `insufficientCapacity`. -/
theorem encodeFold_error_oob (W H rs : Nat) :
    ∀ (bs : List RSBuffer) (k : Nat) (img : Img) (e : StegError),
    (List.enumFrom k bs).foldlM (fun im p => writeBlock W H p.2 (p.1 * rs) im) img
      = .error e → e = .pixelOutOfBounds := by
  intro bs
  induction bs with
  | nil =>
    intro k img e h
    exact Except.noConfusion h
  | cons b bs ih =>
    intro k img e h
    rw [show List.enumFrom k (b :: bs) = (k, b) :: List.enumFrom (k + 1) bs from rfl,
      List.foldlM_cons] at h
    rcases except_bind_err _ _ _ h with h1 | ⟨img1, _, h2⟩
    · exact writeBlock_error_oob W H b (k * rs) img e h1
    · exact ih (k + 1) img1 e h2

/-- Every iteration of a successful `writeBits` run touched an in-range
flat offset (so in particular the width is positive). -/
theorem writeBits_ok_visits (W H : Nat) (bytes : List Nat) (base : Nat) :
    ∀ (n j : Nat) (st st' : Img × Nat),
    writeBits W H bytes base j n st = .ok st' →
    ∀ t, t < n → 0 < W ∧ base + j + t < W * H := by
  intro n
  induction n with
  | zero =>
    intro j st st' _ t ht
    exact absurd ht (by omega)
  | succ n ih =>
    intro j st st' h t ht
    obtain ⟨img, chan⟩ := st
    by_cases hc : (base + j) % W < W ∧ (base + j) / W < H
    · rw [writeBits, if_pos hc] at h
      have hW : 0 < W := by
        rcases Nat.eq_zero_or_pos W with h0 | h0
        · exact absurd hc.1 (by simp [h0])
        · exact h0
      cases t with
      | zero =>
        refine ⟨hW, ?_⟩
        have hy := hc.2
        rw [Nat.div_lt_iff_lt_mul hW] at hy
        have hcomm : H * W = W * H := Nat.mul_comm H W
        omega
      | succ t' =>
        have h2 := ih (j + 1) _ st' h t' (by omega)
        exact ⟨h2.1, by have := h2.2; omega⟩
    · rw [writeBits, if_neg hc] at h
      exact absurd h (by simp)

/-- Decomposition of a successful `writeBlock` into its two loops. -/
theorem writeBlock_ok_decomp (W H : Nat) (b : RSBuffer) (s : Nat) (img img2 : Img)
    (h : writeBlock W H b s img = .ok img2) :
    ∃ s1, writeBits W H b.data s 0 (b.data.length * 8) (img, 0) = .ok s1 ∧
      ∃ s2, writeBits W H b.ecc (s + b.data.length * 8) 0 (b.ecc.length * 8) s1
          = .ok s2 ∧ s2.1 = img2 := by
  rw [writeBlock] at h
  obtain ⟨s1, h1, h2⟩ := except_bind_ok _ _ _ h
  obtain ⟨s2, h3, h4⟩ := except_bind_ok _ _ _ h2
  refine ⟨s1, h1, s2, h3, ?_⟩
  have h4' : (Except.ok s2.1 : Except StegError Img) = .ok img2 := h4
  exact (Except.ok.injEq _ _).mp h4'

/-- A successful `writeBlock` either wrote nothing or stayed inside the
carrier. -/
theorem writeBlock_ok_bounds (W H : Nat) (b : RSBuffer) (s : Nat) (img img2 : Img)
    (h : writeBlock W H b s img = .ok img2) :
    b.bits = 0 ∨ (0 < W ∧ s + b.bits ≤ W * H) := by
  obtain ⟨s1, h1, s2, h2, _⟩ := writeBlock_ok_decomp W H b s img img2 h
  have hbits : b.bits = 8 * (b.data.length + b.ecc.length) := rfl
  rcases Nat.eq_zero_or_pos (b.ecc.length * 8) with he | he
  · rcases Nat.eq_zero_or_pos (b.data.length * 8) with hd | hd
    · left
      omega
    · right
      have hv := writeBits_ok_visits W H b.data s (b.data.length * 8) 0 (img, 0) s1 h1
        (b.data.length * 8 - 1) (by omega)
      exact ⟨hv.1, by omega⟩
  · right
    have hv := writeBits_ok_visits W H b.ecc (s + b.data.length * 8)
      (b.ecc.length * 8) 0 s1 s2 h2 (b.ecc.length * 8 - 1) (by omega)
    exact ⟨hv.1, by omega⟩

/-- Characterization of *any* successful `writeBlock` (no bounds
hypothesis): well-formedness is preserved, slots outside the block's bit
range or off its channel pattern are untouched, and every slot is either
untouched or an LSB overwrite of the original value. -/
theorem writeBlock_ok_spec (W H : Nat) (b : RSBuffer) (s : Nat) (img img2 : Img)
    (hg : GoodImg W H img) (h : writeBlock W H b s img = .ok img2) :
    GoodImg W H img2 ∧
    (∀ idx c, (idx < s ∨ s + b.bits ≤ idx ∨ c ≠ (idx - s) % 3) →
      chanAt img2 idx c = chanAt img idx c) ∧
    (∀ idx c, chanAt img2 idx c = chanAt img idx c ∨
      (s ≤ idx ∧ idx < s + b.bits ∧ c = (idx - s) % 3 ∧
        ∃ bit, bit ≤ 1 ∧ chanAt img2 idx c = (chanAt img idx c &&& 254) ||| bit)) := by
  rcases writeBlock_ok_bounds W H b s img img2 h with h0 | ⟨hW, hbound⟩
  · have hbits : b.bits = 8 * (b.data.length + b.ecc.length) := rfl
    have hd : b.data.length = 0 := by omega
    have he : b.ecc.length = 0 := by omega
    obtain ⟨s1, h1, s2, h2, h3⟩ := writeBlock_ok_decomp W H b s img img2 h
    rw [hd] at h1
    rw [he] at h2
    have he1 : writeBits W H b.data s 0 (0 * 8) (img, 0) = .ok (img, 0) := rfl
    rw [he1] at h1
    obtain rfl : s1 = (img, 0) := ((Except.ok.injEq _ _).mp h1).symm
    have he2 : writeBits W H b.ecc (s + b.data.length * 8) 0 (0 * 8) (img, 0)
        = .ok (img, 0) := rfl
    rw [he2] at h2
    obtain rfl : s2 = (img, 0) := ((Except.ok.injEq _ _).mp h2).symm
    obtain rfl : img = img2 := h3
    exact ⟨hg, fun idx c _ => rfl, fun idx c => Or.inl rfl⟩
  · obtain ⟨img', heq, hg', hframe, hwrites⟩ := writeBlock_spec W H b s img hg hW hbound
    rw [h] at heq
    obtain rfl : img' = img2 := ((Except.ok.injEq _ _).mp heq).symm
    refine ⟨hg', hframe, ?_⟩
    intro idx c
    by_cases hin : s ≤ idx ∧ idx < s + b.bits ∧ c = (idx - s) % 3
    · obtain ⟨ha, hb2, hc⟩ := hin
      refine Or.inr ⟨ha, hb2, hc, byteBit b.bytes (idx - s), byteBit_le_one _ _, ?_⟩
      have hw := hwrites (idx - s) (by omega)
      rw [show s + (idx - s) = idx from by omega] at hw
      rw [hc]
      exact hw
    · refine Or.inl (hframe idx c ?_)
      rcases Nat.lt_or_ge idx s with h1 | h1
      · exact Or.inl h1
      · by_cases h2 : s + b.bits ≤ idx
        · exact Or.inr (Or.inl h2)
        · refine Or.inr (Or.inr ?_)
          intro hcc
          exact hin ⟨h1, by omega, hcc⟩

/-- On a well-formed image every `chanAt` value is a byte; out-of-range
slots read the default `0`. -/
theorem GoodImg.chanAt_lt_all (W H : Nat) (img : Img) (hg : GoodImg W H img)
    (idx c : Nat) : chanAt img idx c < 256 := by
  obtain ⟨hlen, hpx, hval⟩ := hg
  by_cases hidx : idx < img.length
  · have hpxm : img.getD idx [] ∈ img := by
      rw [List.getD_eq_getElem img [] hidx]
      exact List.getElem_mem hidx
    by_cases hc : c < (img.getD idx []).length
    · rw [chanAt, List.getD_eq_getElem _ 0 hc]
      exact hval _ hpxm _ (List.getElem_mem hc)
    · rw [chanAt, List.getD_eq_getElem?_getD,
        List.getElem?_eq_none_iff.mpr (by omega)]
      decide
  · rw [chanAt]
    have h1 : img.getD idx [] = [] := by
      rw [List.getD_eq_getElem?_getD, List.getElem?_eq_none_iff.mpr (by omega)]
      rfl
    rw [h1]
    have h2 : ([] : Pixel).getD c 0 = 0 := by
      rw [List.getD_eq_getElem?_getD, List.getElem?_nil]
      rfl
    rw [h2]
    decide

/-- Two successive LSB overwrites of a byte compose: the second overwrite
wins on the low bit and the high bits survive. -/
theorem land254_absorb : ∀ x < 256, ∀ b ≤ 1,
    ((x &&& 254) ||| b) &&& 254 = x &&& 254 := by
  decide

/-- Relational characterization of *any* successful run of the embedding
fold (no fit or bounds hypotheses): well-formedness is preserved, and
every pixel-channel slot is either untouched or holds an LSB overwrite of
the original value at a slot the placement rule assigns to some block. -/
theorem encodeFold_ok_rel (W H rs : Nat) :
    ∀ (bs : List RSBuffer) (k : Nat) (img img2 : Img), GoodImg W H img →
    (List.enumFrom k bs).foldlM (fun im p => writeBlock W H p.2 (p.1 * rs) im) img
      = .ok img2 →
    GoodImg W H img2 ∧
    ∀ idx c, chanAt img2 idx c = chanAt img idx c ∨
      ((∃ m, m < bs.length ∧ ∃ t, t < (bs.getD m ⟨[], []⟩).bits ∧
          idx = (k + m) * rs + t ∧ c = t % 3) ∧
        ∃ bit, bit ≤ 1 ∧ chanAt img2 idx c = (chanAt img idx c &&& 254) ||| bit) := by
  intro bs
  induction bs with
  | nil =>
    intro k img img2 hg h
    have h' : (Except.ok img : Except StegError Img) = .ok img2 := h
    obtain rfl : img = img2 := (Except.ok.injEq _ _).mp h'
    exact ⟨hg, fun idx c => Or.inl rfl⟩
  | cons b bs ih =>
    intro k img img2 hg h
    rw [show List.enumFrom k (b :: bs) = (k, b) :: List.enumFrom (k + 1) bs from rfl,
      List.foldlM_cons] at h
    obtain ⟨img1, hwb, hrest⟩ := except_bind_ok _ _ _ h
    obtain ⟨hg1, hframe1, hdisj1⟩ := writeBlock_ok_spec W H b (k * rs) img img1 hg hwb
    obtain ⟨hg2, hrel2⟩ := ih (k + 1) img1 img2 hg1 hrest
    refine ⟨hg2, ?_⟩
    intro idx c
    rcases hrel2 idx c with h2 | ⟨⟨m, hm, t, ht, hidx, hcc⟩, bit2, hbit2, hv2⟩
    · rcases hdisj1 idx c with h1 | ⟨ha, hb2, hc, bit1, hbit1, hv1⟩
      · exact Or.inl (h2.trans h1)
      · refine Or.inr ⟨⟨0, by simp, idx - k * rs, ?_, ?_, hc⟩, bit1, hbit1, h2.trans hv1⟩
        · simp only [List.getD_cons_zero]
          omega
        · rw [Nat.add_zero]
          omega
    · have hm' : m + 1 < (b :: bs).length := by
        simp only [List.length_cons]
        omega
      have ht' : t < ((b :: bs).getD (m + 1) ⟨[], []⟩).bits := by
        simp only [List.getD_cons_succ]
        exact ht
      have hidx' : idx = (k + (m + 1)) * rs + t := by
        rw [show k + (m + 1) = k + 1 + m from by omega]
        exact hidx
      rcases hdisj1 idx c with h1 | ⟨_, _, _, bit1, hbit1, hv1⟩
      · refine Or.inr ⟨⟨m + 1, hm', t, ht', hidx', hcc⟩, bit2, hbit2, ?_⟩
        rw [hv2, h1]
      · refine Or.inr ⟨⟨m + 1, hm', t, ht', hidx', hcc⟩, bit2, hbit2, ?_⟩
        rw [hv2, hv1,
          land254_absorb _ (GoodImg.chanAt_lt_all W H img hg idx c) _ hbit1]

theorem encode_ecc_ne_nil (par : List Nat → List Nat) (input : List Nat) :
    encode_ecc par input ≠ [] := by
  simp [encode_ecc]

theorem encode_ecc_head_bits (par : List Nat → List Nat)
    (Hpar : ∀ d, (par d).length = ECC_CODE_LEN) (input : List Nat) :
    ((encode_ecc par input).getD 0 ⟨[], []⟩).bits = 320 := by
  simp [encode_ecc, RSBuffer.bits, u64le, leBytes_length, Hpar, ECC_CODE_LEN]

/-- Characterization of a successful `encode_img_inner`: when every block
of the set fits into one region of `block_region_size` bit-slots, encoding
succeeds, block `m`'s bits land in the LSBs of channels `t % 3` at flat
offsets `m * block_region_size + t`, and every other slot is untouched. -/
theorem encode_img_inner_spec (par : List Nat → List Nat)
    (Hpar : ∀ d, (par d).length = ECC_CODE_LEN)
    (img : Img) (W H : Nat) (input : List Nat) (hg : GoodImg W H img)
    (Hfit : ∀ b ∈ encode_ecc par input,
      b.bits ≤ W * H / (encode_ecc par input).length) :
    ∃ img', encode_img_inner par img W H input = .ok img' ∧ GoodImg W H img' ∧
      (∀ idx c,
        (∀ m, m < (encode_ecc par input).length →
          ∀ t, t < ((encode_ecc par input).getD m ⟨[], []⟩).bits →
          ¬(idx = m * (W * H / (encode_ecc par input).length) + t ∧ c = t % 3)) →
        chanAt img' idx c = chanAt img idx c) ∧
      (∀ m, m < (encode_ecc par input).length →
        ∀ t, t < ((encode_ecc par input).getD m ⟨[], []⟩).bits →
        chanAt img' (m * (W * H / (encode_ecc par input).length) + t) (t % 3)
          = ((chanAt img (m * (W * H / (encode_ecc par input).length) + t) (t % 3))
              &&& 254)
              ||| byteBit ((encode_ecc par input).getD m ⟨[], []⟩).bytes t) := by
  have hhead : ((encode_ecc par input).getD 0 ⟨[], []⟩).bits = 320 :=
    encode_ecc_head_bits par Hpar input
  have hpos : 0 < (encode_ecc par input).length := by
    cases h : encode_ecc par input with
    | nil => exact absurd h (encode_ecc_ne_nil par input)
    | cons a l => simp
  have hheadfit : 320 ≤ W * H / (encode_ecc par input).length := by
    rw [← hhead]
    apply Hfit
    rw [List.getD_eq_getElem _ _ hpos]
    exact List.getElem_mem hpos
  have hW : 0 < W := by
    by_contra hcon
    have hw0 : W = 0 := by omega
    rw [hw0] at hheadfit
    simp at hheadfit
  have hMrs : (encode_ecc par input).length
      * (W * H / (encode_ecc par input).length) ≤ W * H := by
    rw [Nat.mul_comm]
    exact Nat.div_mul_le_self _ _
  have hcheck : ¬ (W * H < ECC_BLOCK_LEN * (encode_ecc par input).length) := by
    have h1 : ECC_BLOCK_LEN * (encode_ecc par input).length
        ≤ 320 * (encode_ecc par input).length :=
      Nat.mul_le_mul_right _ (by norm_num [ECC_BLOCK_LEN])
    have h2 : 320 * (encode_ecc par input).length
        ≤ (W * H / (encode_ecc par input).length) * (encode_ecc par input).length :=
      Nat.mul_le_mul_right _ hheadfit
    have hcomm : (W * H / (encode_ecc par input).length) * (encode_ecc par input).length
        = (encode_ecc par input).length * (W * H / (encode_ecc par input).length) :=
      Nat.mul_comm _ _
    omega
  obtain ⟨img', heq, hg', hframe, hwrites⟩ :=
    encodeBlocks_spec W H (W * H / (encode_ecc par input).length)
      (encode_ecc par input) 0 img hg hW (fun b hb => Hfit b hb)
      (by rw [Nat.zero_add]; exact hMrs)
  simp only [Nat.zero_add] at hframe hwrites
  refine ⟨img', ?_, hg', hframe, hwrites⟩
  rw [encode_img_inner]
  simp only [if_neg hcheck]
  exact heq

/-! ### The extraction loop -/

theorem bytesUpTo_length (B : List Nat) (j : Nat) :
    (bytesUpTo B j).length = B.length := by
  simp [bytesUpTo]

theorem bytesUpTo_zero (B : List Nat) :
    bytesUpTo B 0 = List.replicate B.length 0 := by
  apply List.ext_getElem (by simp [bytesUpTo])
  intro i h1 h2
  simp only [bytesUpTo, List.getElem_map, List.getElem_range, List.getElem_replicate]
  have hz : ¬ i < 0 / 8 := by omega
  rw [if_neg hz]
  by_cases hi : i = 0 / 8
  · rw [if_pos hi]
    simp [Nat.mod_one]
  · rw [if_neg hi]

theorem bytesUpTo_full (B : List Nat) :
    bytesUpTo B (8 * B.length) = B := by
  apply List.ext_getElem (by simp [bytesUpTo])
  intro i h1 h2
  have h2' : i < B.length := by simpa [bytesUpTo] using h1
  simp only [bytesUpTo, List.getElem_map, List.getElem_range]
  have hc : i < 8 * B.length / 8 := by omega
  rw [if_pos hc]
  exact List.getD_eq_getElem B 0 h2'

/-- ORing bit `r` of a byte into its low-`r` remainder extends the
remainder by one bit. -/
theorem byte_or_bit : ∀ v < 256, ∀ r < 8,
    (v % 2 ^ r) ||| (((v >>> r) &&& 1) <<< r) = v % 2 ^ (r + 1) := by
  decide

theorem bytesUpTo_step (B : List Nat) (HB : ∀ v ∈ B, v < 256) (j : Nat)
    (hj : j < 8 * B.length) :
    (bytesUpTo B j).set (j / 8)
        ((bytesUpTo B j).getD (j / 8) 0 ||| (byteBit B j <<< (j % 8)))
      = bytesUpTo B (j + 1) := by
  have hj8 : j / 8 < B.length := by omega
  have hBv : B.getD (j / 8) 0 < 256 := by
    rw [List.getD_eq_getElem B 0 hj8]
    exact HB _ (List.getElem_mem hj8)
  have hgetD : (bytesUpTo B j).getD (j / 8) 0 = B.getD (j / 8) 0 % 2 ^ (j % 8) := by
    rw [List.getD_eq_getElem _ 0 (by rw [bytesUpTo_length]; exact hj8)]
    simp only [bytesUpTo, List.getElem_map, List.getElem_range]
    rw [if_neg (by omega)]
    simp
  have hbit : (bytesUpTo B j).getD (j / 8) 0 ||| (byteBit B j <<< (j % 8))
      = B.getD (j / 8) 0 % 2 ^ (j % 8 + 1) := by
    rw [hgetD, byteBit]
    exact byte_or_bit _ hBv _ (by omega)
  rw [hbit]
  apply List.ext_getElem (by simp [bytesUpTo])
  intro i h1 h2
  have hi : i < B.length := by
    simpa [bytesUpTo] using h2
  rw [List.getElem_set]
  simp only [bytesUpTo, List.getElem_map, List.getElem_range]
  by_cases hij : j / 8 = i
  · rw [if_pos hij]
    by_cases h7 : j % 8 = 7
    · have ha : i < (j + 1) / 8 := by omega
      rw [if_pos ha, ← hij]
      have h256 : (2 : Nat) ^ (j % 8 + 1) = 256 := by
        rw [h7]
        norm_num
      have : B.getD (j / 8) 0 % 2 ^ (j % 8 + 1) = B.getD (j / 8) 0 := by
        rw [h256]
        exact Nat.mod_eq_of_lt hBv
      rw [this]
    · have ha : ¬ i < (j + 1) / 8 := by omega
      have hb : i = (j + 1) / 8 := by omega
      rw [if_neg ha, if_pos hb, ← hij]
      have he : j % 8 + 1 = (j + 1) % 8 := by omega
      rw [he]
  · rw [if_neg hij]
    by_cases ha : i < j / 8
    · rw [if_pos ha, if_pos (by omega)]
    · have hgt : j / 8 < i := by omega
      rw [if_neg (by omega), if_neg (by omega)]
      by_cases hb : i < (j + 1) / 8
      · omega
      · rw [if_neg hb]
        by_cases hc : i = (j + 1) / 8
        · rw [if_pos hc]
          have : (j + 1) % 8 = 0 := by omega
          rw [this]
          simp [Nat.mod_one]
        · rw [if_neg hc]

/-- The extraction loop `readBits` reconstructs the byte vector `B` when
the visited LSB slots hold exactly the bits of `B`. -/
theorem readBits_spec (W H : Nat) (img : Img) (base : Nat) (B : List Nat)
    (HB : ∀ v ∈ B, v < 256) (hW : 0 < W)
    (Hbound : base + 8 * B.length ≤ W * H)
    (Hbits : ∀ t, t < 8 * B.length →
      chanAt img (base + t) (t % 3) &&& 1 = byteBit B t) :
    ∀ n j, j + n = 8 * B.length →
      readBits W H img base j n (bytesUpTo B j, j % 3)
        = .ok (B, 8 * B.length % 3) := by
  intro n
  induction n with
  | zero =>
    intro j hj
    have hje : j = 8 * B.length := by omega
    subst hje
    rw [bytesUpTo_full]
    rfl
  | succ n ih =>
    intro j hj
    have hjlt : j < 8 * B.length := by omega
    have hoff : base + j < W * H := by omega
    have hx : (base + j) % W < W := Nat.mod_lt _ hW
    have hy : (base + j) / W < H := by
      rw [Nat.div_lt_iff_lt_mul hW, Nat.mul_comm]
      omega
    have hflat : (base + j) / W * W + (base + j) % W = base + j := by
      have h0 := Nat.div_add_mod (base + j) W
      rw [Nat.mul_comm ((base + j) / W) W]
      omega
    simp only [readBits]
    rw [if_pos ⟨hx, hy⟩]
    rw [hflat]
    rw [Hbits j hjlt]
    rw [bytesUpTo_step B HB j hjlt]
    have hch : (j % 3 + 1) % 3 = (j + 1) % 3 := by omega
    rw [hch]
    exact ih (j + 1) (by omega)

/-- `readBits` from a zeroed buffer, as `decode_img_inner` calls it. -/
theorem readBits_block (W H : Nat) (img : Img) (base : Nat) (B : List Nat)
    (HB : ∀ v ∈ B, v < 256) (hW : 0 < W)
    (Hbound : base + 8 * B.length ≤ W * H)
    (Hbits : ∀ t, t < 8 * B.length →
      chanAt img (base + t) (t % 3) &&& 1 = byteBit B t) :
    readBits W H img base 0 (8 * B.length) (List.replicate B.length 0, 0)
      = .ok (B, 8 * B.length % 3) := by
  have h0 := readBits_spec W H img base B HB hW Hbound Hbits (8 * B.length) 0
    (by omega)
  rw [bytesUpTo_zero] at h0
  exact h0

/-! ### Decoding an uncorrupted block set -/

/-- The modelled corrector accepts an uncorrupted codeword and returns its
data region. -/
theorem pc_ok (par : List Nat → List Nat)
    (Hpar : ∀ d, (par d).length = ECC_CODE_LEN) (c : List Nat) :
    parityCheckCorrect par (c ++ par c) = .ok c := by
  have hlen : (c ++ par c).length - ECC_CODE_LEN = c.length := by
    simp [Hpar]
  rw [parityCheckCorrect]
  simp only [hlen, List.take_left]
  simp

theorem decode_ecc_pc_aux (par : List Nat → List Nat)
    (Hpar : ∀ d, (par d).length = ECC_CODE_LEN) :
    ∀ (cs : List (List Nat)) (acc : List Nat),
      (cs.map (fun c => c ++ par c)).foldlM
          (fun buf b => (parityCheckCorrect par b).map (fun d => buf ++ d)) acc
        = .ok (acc ++ cs.flatten) := by
  intro cs
  induction cs with
  | nil => intro acc; simp [pure, Except.pure]
  | cons c cs ih =>
    intro acc
    simp only [List.map_cons, List.foldlM_cons, pc_ok par Hpar c]
    show ((Except.ok (acc ++ c)).bind fun a => (cs.map _).foldlM _ a) = _
    rw [Except.bind]
    rw [ih (acc ++ c)]
    simp

/-- `decode_ecc` with the clean-path corrector undoes blockwise systematic
encoding, concatenating the data regions. -/
theorem decode_ecc_pc (par : List Nat → List Nat)
    (Hpar : ∀ d, (par d).length = ECC_CODE_LEN) (cs : List (List Nat)) :
    decode_ecc (parityCheckCorrect par) (cs.map (fun c => c ++ par c))
      = .ok cs.flatten := by
  have h := decode_ecc_pc_aux par Hpar cs []
  simpa [decode_ecc] using h

theorem encode_ecc_length (par : List Nat → List Nat) (input : List Nat) :
    (encode_ecc par input).length
      = (input.length + ECC_DATA_LEN - 1) / ECC_DATA_LEN + 1 := by
  simp [encode_ecc]

theorem encode_ecc_getD_succ (par : List Nat → List Nat) (input : List Nat)
    (m : Nat) (hm : m < (input.length + ECC_DATA_LEN - 1) / ECC_DATA_LEN) :
    (encode_ecc par input).getD (m + 1) ⟨[], []⟩
      = ⟨(input.drop (m * ECC_DATA_LEN)).take ECC_DATA_LEN,
          par ((input.drop (m * ECC_DATA_LEN)).take ECC_DATA_LEN)⟩ := by
  rw [encode_ecc]
  simp only [List.getD_cons_succ]
  rw [List.getD_eq_getElem _ _ (by simpa using hm)]
  simp

/-- Characterization of the `for i in 1..num_blocks + 1` extraction loop of
`decode_img_inner`: reading back regions `i, i+1, …` whose LSB slots hold
the bits of systematically encoded chunks recovers the raw blocks. -/
theorem readBlocks_spec (W H : Nat) (img : Img) (rs : Nat)
    (par : List Nat → List Nat) (HparL : ∀ d, (par d).length = ECC_CODE_LEN)
    (hW : 0 < W) :
    ∀ (cs : List (List Nat)) (i : Nat),
    (∀ m, m + 1 < cs.length → (cs.getD m []).length = ECC_DATA_LEN) →
    (∀ c ∈ cs, c.length ≤ ECC_DATA_LEN) →
    (∀ c ∈ cs, (∀ v ∈ c, v < 256) ∧ (∀ v ∈ par c, v < 256)) →
    (∀ m, m < cs.length →
      (i + m) * rs + 8 * ((cs.getD m []).length + ECC_CODE_LEN) ≤ W * H) →
    (∀ m, m < cs.length → ∀ t, t < 8 * ((cs.getD m []).length + ECC_CODE_LEN) →
      chanAt img ((i + m) * rs + t) (t % 3) &&& 1
        = byteBit ((cs.getD m []) ++ par (cs.getD m [])) t) →
    readBlocks W H img rs i cs.length ((cs.map List.length).sum)
      = .ok (cs.map (fun c => c ++ par c)) := by
  intro cs
  induction cs with
  | nil => intro i _ _ _ _ _; rfl
  | cons c cs ih =>
    intro i Hfull Hle HB Hbound Hbits
    have hc223 : cs = [] ∨ c.length = ECC_DATA_LEN := by
      cases cs with
      | nil => exact Or.inl rfl
      | cons d ds => exact Or.inr (Hfull 0 (by simp))
    have hcle : c.length ≤ ECC_DATA_LEN := Hle c (by simp)
    have hS : ((c :: cs).map List.length).sum
        = c.length + ((cs.map List.length).sum) := by simp
    have hbdl : (if ECC_DATA_LEN < c.length + (cs.map List.length).sum
        then ECC_DATA_LEN else c.length + (cs.map List.length).sum) = c.length := by
      rcases hc223 with rfl | h223
      · simp only [List.map_nil, List.sum_nil, Nat.add_zero]
        rw [if_neg (by omega)]
      · by_cases hpos : ECC_DATA_LEN < c.length + (cs.map List.length).sum
        · rw [if_pos hpos]; omega
        · rw [if_neg hpos]; omega
    have hBlen : (c ++ par c).length = c.length + ECC_CODE_LEN := by
      simp [HparL]
    have hBbytes : ∀ v ∈ c ++ par c, v < 256 := by
      intro v hv
      rcases List.mem_append.mp hv with h | h
      · exact (HB c (by simp)).1 v h
      · exact (HB c (by simp)).2 v h
    have hb0 := readBits_block W H img (i * rs) (c ++ par c) hBbytes hW
      (by rw [hBlen]; have := Hbound 0 (by simp); simpa using this)
      (by
        intro t ht
        have := Hbits 0 (by simp) t (by simpa [hBlen] using ht)
        simpa using this)
    have hcount : (c.length + ECC_CODE_LEN) * 8 = 8 * (c ++ par c).length := by
      rw [hBlen]
      omega
    have hbuf : List.replicate (c.length + ECC_CODE_LEN) 0
        = List.replicate (c ++ par c).length 0 := by
      rw [hBlen]
    have hrest : readBlocks W H img rs (i + 1) cs.length ((cs.map List.length).sum)
        = .ok (cs.map (fun c' => c' ++ par c')) := by
      apply ih (i + 1)
      · intro m hm
        have := Hfull (m + 1) (by simp only [List.length_cons]; omega)
        simpa using this
      · intro c' hc'
        exact Hle c' (by simp [hc'])
      · intro c' hc'
        exact HB c' (by simp [hc'])
      · intro m hm
        have := Hbound (m + 1) (by simp only [List.length_cons]; omega)
        have he : i + (m + 1) = i + 1 + m := by omega
        rw [he] at this
        simpa using this
      · intro m hm t ht
        have := Hbits (m + 1) (by simp only [List.length_cons]; omega) t
          (by simpa using ht)
        have he : i + (m + 1) = i + 1 + m := by omega
        rw [he] at this
        simpa using this
    show readBlocks W H img rs i ((c :: cs).length) (((c :: cs).map List.length).sum) = _
    rw [show (c :: cs).length = cs.length + 1 from rfl]
    simp only [readBlocks, hS, hbdl]
    rw [hcount, hbuf, hb0]
    show (readBlocks W H img rs (i + 1) cs.length
        (c.length + (cs.map List.length).sum - c.length)).bind _ = _
    rw [show c.length + (cs.map List.length).sum - c.length
        = (cs.map List.length).sum from by omega]
    rw [hrest]
    rfl

theorem getD_map_range {α : Type} (n : Nat) (f : Nat → α) (d : α) (m : Nat)
    (hm : m < n) : ((List.range n).map f).getD m d = f m := by
  rw [List.getD_eq_getElem _ _ (by simpa using hm)]
  simp

/-! ### The round trip -/

/-- Core round-trip lemma: when every block of the set fits into one
region (`b.bits ≤ block_region_size`), decoding a successfully encoded
carrier recovers the payload length from the header and the payload from
the data regions. -/
theorem round_trip_core (par : List Nat → List Nat)
    (HparL : ∀ d, (par d).length = ECC_CODE_LEN)
    (HparB : ∀ d, ∀ v ∈ par d, v < 256)
    (img : Img) (W H : Nat) (input : List Nat)
    (hg : GoodImg W H img) (Hin : ∀ v ∈ input, v < 256)
    (HL : input.length < 2 ^ 64)
    (Hfit : ∀ b ∈ encode_ecc par input,
      b.bits ≤ W * H / (encode_ecc par input).length) :
    ∀ img', encode_img_inner par img W H input = .ok img' →
      readHeaderLen (parityCheckCorrect par) img' W H = .ok input.length ∧
      decode_img_inner (parityCheckCorrect par) img' W H = .ok input := by
  intro img' henc
  obtain ⟨img2, heq, hg', hframe, hwrites⟩ :=
    encode_img_inner_spec par HparL img W H input hg Hfit
  have himg : img' = img2 := by
    rw [henc] at heq
    exact (Except.ok.injEq _ _).mp heq
  subst himg
  have hE : ECC_DATA_LEN = 223 := rfl
  have hC : ECC_CODE_LEN = 32 := rfl
  have hU : USIZE_SIZE = 8 := rfl
  have hM : (encode_ecc par input).length
      = (input.length + ECC_DATA_LEN - 1) / ECC_DATA_LEN + 1 :=
    encode_ecc_length par input
  have hhb : (encode_ecc par input).getD 0 ⟨[], []⟩
      = ⟨u64le input.length, par (u64le input.length)⟩ := by
    simp [encode_ecc]
  have hu8 : (u64le input.length).length = 8 := leBytes_length 8 _
  have hhdrlen : (u64le input.length ++ par (u64le input.length)).length
      = USIZE_SIZE + ECC_CODE_LEN := by
    simp [hu8, HparL, USIZE_SIZE]
  have hhdrbits : ((encode_ecc par input).getD 0 ⟨[], []⟩).bits = 320 :=
    encode_ecc_head_bits par HparL input
  have hpos : 0 < (encode_ecc par input).length := by
    rw [hM]
    exact Nat.succ_pos _
  have hheadfit : 320 ≤ W * H / (encode_ecc par input).length := by
    rw [← hhdrbits]
    apply Hfit
    rw [List.getD_eq_getElem _ _ hpos]
    exact List.getElem_mem hpos
  have hW : 0 < W := by
    by_contra hcon
    have hw0 : W = 0 := by omega
    rw [hw0] at hheadfit
    simp at hheadfit
  have hMrs : (encode_ecc par input).length
      * (W * H / (encode_ecc par input).length) ≤ W * H := by
    rw [Nat.mul_comm]
    exact Nat.div_mul_le_self _ _
  have hrsWH : W * H / (encode_ecc par input).length ≤ W * H := by
    have h1 : 1 * (W * H / (encode_ecc par input).length)
        ≤ (encode_ecc par input).length * (W * H / (encode_ecc par input).length) :=
      Nat.mul_le_mul_right _ hpos
    omega
  -- header slots hold the header block's bits
  have hhdrB : ∀ v ∈ u64le input.length ++ par (u64le input.length), v < 256 := by
    intro v hv
    rcases List.mem_append.mp hv with h | h
    · exact leBytes_lt 8 _ v h
    · exact HparB _ v h
  have hhdrbound : 0 + 8 * (u64le input.length ++ par (u64le input.length)).length
      ≤ W * H := by
    rw [hhdrlen, hU, hC]
    omega
  have hhdrslots : ∀ t, t < 8 * (u64le input.length ++ par (u64le input.length)).length →
      chanAt img' (0 + t) (t % 3) &&& 1
        = byteBit (u64le input.length ++ par (u64le input.length)) t := by
    intro t ht
    rw [hhdrlen, hU, hC] at ht
    have hw := hwrites 0 hpos t (by rw [hhdrbits]; omega)
    rw [hhb] at hw
    simp only [Nat.zero_mul, Nat.zero_add] at hw
    have hbytes : (RSBuffer.mk (u64le input.length) (par (u64le input.length))).bytes
        = u64le input.length ++ par (u64le input.length) := rfl
    rw [hbytes] at hw
    simp only [Nat.zero_add]
    rw [hw]
    exact (lsb_facts _ (hg.chanAt_lt W H img t (t % 3) (by omega) (by omega)) _
      (byteBit_le_one _ _)).1
  have hreadhdr : readBits W H img' 0 0 ((USIZE_SIZE + ECC_CODE_LEN) * 8)
      (List.replicate (USIZE_SIZE + ECC_CODE_LEN) 0, 0)
      = .ok (u64le input.length ++ par (u64le input.length),
          8 * (u64le input.length ++ par (u64le input.length)).length % 3) := by
    have h := readBits_block W H img' 0 _ hhdrB hW hhdrbound hhdrslots
    rw [show (USIZE_SIZE + ECC_CODE_LEN) * 8
        = 8 * (u64le input.length ++ par (u64le input.length)).length from by
      rw [hhdrlen]; omega]
    rw [show List.replicate (USIZE_SIZE + ECC_CODE_LEN) (0 : Nat)
        = List.replicate (u64le input.length ++ par (u64le input.length)).length 0 from by
      rw [hhdrlen]]
    exact h
  have hdec : decode_ecc (parityCheckCorrect par)
      [u64le input.length ++ par (u64le input.length)] = .ok (u64le input.length) := by
    have h := decode_ecc_pc par HparL [u64le input.length]
    simpa using h
  have hhdrcall : readHeaderLen (parityCheckCorrect par) img' W H
      = .ok input.length := by
    rw [readHeaderLen]
    rw [hreadhdr]
    show (decode_ecc (parityCheckCorrect par)
        [u64le input.length ++ par (u64le input.length)]).bind _ = _
    rw [hdec]
    show Except.ok (leRead ((u64le input.length).take USIZE_SIZE)) = _
    rw [List.take_of_length_le (by rw [hu8, hU])]
    show Except.ok (leRead (leBytes 8 input.length)) = Except.ok input.length
    rw [leRead_leBytes 8 _ (by
      have h64 : (2 : Nat) ^ (8 * 8) = 2 ^ 64 := by norm_num
      rw [h64]
      exact HL)]
  refine ⟨hhdrcall, ?_⟩
  -- the data phase
  have hNle : input.length
      ≤ ECC_DATA_LEN * ((input.length + ECC_DATA_LEN - 1) / ECC_DATA_LEN) := by
    rw [hE]
    omega
  have hflat := chunksFlatten ((input.length + ECC_DATA_LEN - 1) / ECC_DATA_LEN)
    input hNle
  have hsum : (((List.range ((input.length + ECC_DATA_LEN - 1) / ECC_DATA_LEN)).map
        (fun m => (input.drop (m * ECC_DATA_LEN)).take ECC_DATA_LEN)).map
          List.length).sum = input.length := by
    have h := congrArg List.length hflat
    rw [List.length_flatten] at h
    simpa [List.map_map, Function.comp] using h
  have hblocksucc : ∀ m, m < (input.length + ECC_DATA_LEN - 1) / ECC_DATA_LEN →
      (encode_ecc par input).getD (m + 1) ⟨[], []⟩
        = ⟨(input.drop (m * ECC_DATA_LEN)).take ECC_DATA_LEN,
            par ((input.drop (m * ECC_DATA_LEN)).take ECC_DATA_LEN)⟩ :=
    fun m hm => encode_ecc_getD_succ par input m hm
  have hchunklen : ∀ m,
      ((input.drop (m * ECC_DATA_LEN)).take ECC_DATA_LEN).length
        = min ECC_DATA_LEN (input.length - m * ECC_DATA_LEN) := by
    intro m
    simp [List.length_take, List.length_drop]
  have hfitm : ∀ m, m < (input.length + ECC_DATA_LEN - 1) / ECC_DATA_LEN →
      8 * (((input.drop (m * ECC_DATA_LEN)).take ECC_DATA_LEN).length + ECC_CODE_LEN)
        ≤ W * H / (encode_ecc par input).length := by
    intro m hm
    have hmem : (encode_ecc par input).getD (m + 1) ⟨[], []⟩ ∈ encode_ecc par input := by
      rw [List.getD_eq_getElem _ _ (by rw [hM]; omega)]
      exact List.getElem_mem (by rw [hM]; omega)
    have hf := Hfit _ hmem
    rw [hblocksucc m hm] at hf
    simpa [RSBuffer.bits, HparL] using hf
  have hboundm : ∀ m, m < (input.length + ECC_DATA_LEN - 1) / ECC_DATA_LEN →
      (1 + m) * (W * H / (encode_ecc par input).length)
          + 8 * (((input.drop (m * ECC_DATA_LEN)).take ECC_DATA_LEN).length
            + ECC_CODE_LEN) ≤ W * H := by
    intro m hm
    have h1 := hfitm m hm
    have h2 : (1 + m + 1) * (W * H / (encode_ecc par input).length)
        = (1 + m) * (W * H / (encode_ecc par input).length)
          + (W * H / (encode_ecc par input).length) := by
      rw [Nat.add_mul, Nat.one_mul]
    have h3 : (1 + m + 1) * (W * H / (encode_ecc par input).length)
        ≤ (encode_ecc par input).length * (W * H / (encode_ecc par input).length) := by
      apply Nat.mul_le_mul_right
      rw [hM]
      omega
    omega
  have hslotsm : ∀ m, m < (input.length + ECC_DATA_LEN - 1) / ECC_DATA_LEN →
      ∀ t, t < 8 * (((input.drop (m * ECC_DATA_LEN)).take ECC_DATA_LEN).length
          + ECC_CODE_LEN) →
      chanAt img' ((1 + m) * (W * H / (encode_ecc par input).length) + t) (t % 3) &&& 1
        = byteBit ((input.drop (m * ECC_DATA_LEN)).take ECC_DATA_LEN
            ++ par ((input.drop (m * ECC_DATA_LEN)).take ECC_DATA_LEN)) t := by
    intro m hm t ht
    have hbits : ((encode_ecc par input).getD (m + 1) ⟨[], []⟩).bits
        = 8 * (((input.drop (m * ECC_DATA_LEN)).take ECC_DATA_LEN).length
            + ECC_CODE_LEN) := by
      rw [hblocksucc m hm]
      simp [RSBuffer.bits, HparL]
    have hw := hwrites (m + 1) (by rw [hM]; omega) t (by rw [hbits]; exact ht)
    rw [hblocksucc m hm] at hw
    have hbytes : (RSBuffer.mk ((input.drop (m * ECC_DATA_LEN)).take ECC_DATA_LEN)
        (par ((input.drop (m * ECC_DATA_LEN)).take ECC_DATA_LEN))).bytes
        = (input.drop (m * ECC_DATA_LEN)).take ECC_DATA_LEN
            ++ par ((input.drop (m * ECC_DATA_LEN)).take ECC_DATA_LEN) := rfl
    rw [hbytes] at hw
    have hm1 : (1 + m) = (m + 1) := by omega
    rw [hm1]
    rw [hw]
    refine (lsb_facts _ (hg.chanAt_lt W H img _ (t % 3) ?_ (by omega)) _
      (byteBit_le_one _ _)).1
    have hb := hboundm m hm
    rw [hm1] at hb
    omega
  have hreadblocks : readBlocks W H img'
      (W * H / (encode_ecc par input).length) 1
      ((input.length + ECC_DATA_LEN - 1) / ECC_DATA_LEN) input.length
      = .ok (((List.range ((input.length + ECC_DATA_LEN - 1) / ECC_DATA_LEN)).map
          (fun m => (input.drop (m * ECC_DATA_LEN)).take ECC_DATA_LEN)).map
            (fun c => c ++ par c)) := by
    have hlen : ((List.range ((input.length + ECC_DATA_LEN - 1) / ECC_DATA_LEN)).map
        (fun m => (input.drop (m * ECC_DATA_LEN)).take ECC_DATA_LEN)).length
        = (input.length + ECC_DATA_LEN - 1) / ECC_DATA_LEN := by
      simp
    have happ := readBlocks_spec W H img'
      (W * H / (encode_ecc par input).length) par HparL hW
      ((List.range ((input.length + ECC_DATA_LEN - 1) / ECC_DATA_LEN)).map
        (fun m => (input.drop (m * ECC_DATA_LEN)).take ECC_DATA_LEN)) 1
      (by
        intro m hm
        rw [hlen] at hm
        rw [getD_map_range _ _ _ m (by omega), hchunklen m]
        rw [hE] at hm ⊢
        omega)
      (by
        intro c hc
        simp only [List.mem_map, List.mem_range] at hc
        obtain ⟨m, _, rfl⟩ := hc
        rw [hchunklen m]
        omega)
      (by
        intro c hc
        simp only [List.mem_map, List.mem_range] at hc
        obtain ⟨m, _, rfl⟩ := hc
        constructor
        · intro v hv
          exact Hin v (List.mem_of_mem_drop (List.mem_of_mem_take hv))
        · intro v hv
          exact HparB _ v hv)
      (by
        intro m hm
        rw [hlen] at hm
        rw [getD_map_range _ _ _ m hm]
        exact hboundm m hm)
      (by
        intro m hm t ht
        rw [hlen] at hm
        rw [getD_map_range _ _ _ m hm] at ht ⊢
        exact hslotsm m hm t ht)
    rw [hlen, hsum] at happ
    exact happ
  rw [decode_img_inner]
  rw [hhdrcall]
  show (readBlocks W H img'
      (W * H / ((input.length + ECC_DATA_LEN - 1) / ECC_DATA_LEN + 1)) 1
      ((input.length + ECC_DATA_LEN - 1) / ECC_DATA_LEN) input.length).bind _ = _
  rw [← hM]
  rw [hreadblocks]
  show decode_ecc (parityCheckCorrect par) _ = _
  rw [decode_ecc_pc par HparL]
  rw [hflat]

/-! ### C1 — round trip (corrected) -/

/-- C1 (amended): the round trip holds for every carrier in which each
block of the payload's block set fits inside one placement region
(`b.bits ≤ block_region_size` for every block `b`; bit-slot capacity alone
is *not* sufficient, see `C1_counterexample`).  Under that fit condition,
`decode(encode(carrier, w, h, p), w, h) = p` for every payload, including
the empty payload. -/
theorem C1_round_trip (par : List Nat → List Nat)
    (HparL : ∀ d, (par d).length = ECC_CODE_LEN)
    (HparB : ∀ d, ∀ v ∈ par d, v < 256)
    (img : Img) (W H : Nat) (input : List Nat)
    (hg : GoodImg W H img) (Hin : ∀ v ∈ input, v < 256)
    (HL : input.length < 2 ^ 64)
    (Hfit : ∀ b ∈ encode_ecc par input,
      b.bits ≤ W * H / (encode_ecc par input).length) :
    (encode_img_inner par img W H input).bind
      (fun im => decode_img_inner (parityCheckCorrect par) im W H) = .ok input := by
  obtain ⟨img', henc, _, _, _⟩ :=
    encode_img_inner_spec par HparL img W H input hg Hfit
  rw [henc]
  show decode_img_inner (parityCheckCorrect par) img' W H = .ok input
  exact (round_trip_core par HparL HparB img W H input hg Hin HL Hfit img' henc).2

/-- Counterexample to C1 as stated: a 16×41 carrier has 656 pixels, which
is exactly the 656 bit-slots the block set of a 10-byte payload needs
(sufficient capacity in the spec's §4.3 bit-slot sense), yet the data
block overflows its region (`region_size = 656/2 = 328 < 336` of its bits)
and `encode_img_inner` dies in an out-of-bounds pixel access, so the round
trip cannot return the payload. -/
theorem C1_counterexample :
    totalBits (encode_ecc (fun _ => List.replicate 32 0) (List.replicate 10 0))
        ≤ 16 * 41 ∧
    encode_img_inner (fun _ => List.replicate 32 0)
        (List.replicate 656 (List.replicate 4 0)) 16 41 (List.replicate 10 0)
      = .error .pixelOutOfBounds ∧
    (encode_img_inner (fun _ => List.replicate 32 0)
        (List.replicate 656 (List.replicate 4 0)) 16 41 (List.replicate 10 0)).bind
      (fun im => decode_img_inner
        (parityCheckCorrect (fun _ => List.replicate 32 0)) im 16 41)
      ≠ .ok (List.replicate 10 0) := by
  refine ⟨by decide, by decide, by decide⟩

/-- Witness for the amended C1 on a 20×16 carrier with the empty payload:
the block set is a single 40-byte header block, its 320 bits fit the
320-pixel region, and the round trip returns the empty payload. -/
theorem C1_round_trip_witness :
    (encode_img_inner (fun _ => List.replicate 32 0)
        (List.replicate 320 (List.replicate 4 0)) 20 16 []).bind
      (fun im => decode_img_inner
        (parityCheckCorrect (fun _ => List.replicate 32 0)) im 20 16)
      = .ok [] :=
  C1_round_trip (fun _ => List.replicate 32 0) (fun _ => rfl)
    (fun _ v hv => by
      rcases List.eq_of_mem_replicate hv with rfl
      norm_num)
    (List.replicate 320 (List.replicate 4 0)) 20 16 []
    (by refine ⟨by decide, ?_, ?_⟩ <;> decide)
    (by decide) (by decide) (by decide)

/-! ### C5 — ECC block framing -/

/-- C5: for every parity function of the spec'd shape (32 parity bytes per
block), `encode_ecc` returns the header block followed by exactly
`N = ceil(len/223)` data blocks; the data blocks are the consecutive
223-byte slices of the payload (all full except possibly the last), every
block carries exactly 32 parity bytes, and the data regions of blocks
`1..N` concatenate back to the payload (so their lengths sum to `len`);
a payload that is an exact positive multiple of 223 yields `N = len/223`
blocks. -/
theorem C5_encode_ecc_framing (par : List Nat → List Nat)
    (Hpar : ∀ d, (par d).length = ECC_CODE_LEN) (input : List Nat) :
    (encode_ecc par input).length
        = (input.length + ECC_DATA_LEN - 1) / ECC_DATA_LEN + 1 ∧
    (encode_ecc par input).head?
        = some ⟨u64le input.length, par (u64le input.length)⟩ ∧
    (∀ b ∈ encode_ecc par input, b.ecc.length = 32) ∧
    ((encode_ecc par input).drop 1).map RSBuffer.data
        = (List.range ((input.length + ECC_DATA_LEN - 1) / ECC_DATA_LEN)).map
            (fun i => (input.drop (i * ECC_DATA_LEN)).take ECC_DATA_LEN) ∧
    (∀ i, i + 1 < (input.length + ECC_DATA_LEN - 1) / ECC_DATA_LEN →
        ((input.drop (i * ECC_DATA_LEN)).take ECC_DATA_LEN).length = ECC_DATA_LEN) ∧
    ((((encode_ecc par input).drop 1).map RSBuffer.data).flatten = input) ∧
    ((((encode_ecc par input).drop 1).map
        (fun b => b.data.length)).sum = input.length) ∧
    (∀ m, 0 < m → input.length = ECC_DATA_LEN * m →
        (input.length + ECC_DATA_LEN - 1) / ECC_DATA_LEN = m) := by
  have hE : ECC_DATA_LEN = 223 := rfl
  have hC : ECC_CODE_LEN = 32 := rfl
  have hmap : ((encode_ecc par input).drop 1).map RSBuffer.data
      = (List.range ((input.length + ECC_DATA_LEN - 1) / ECC_DATA_LEN)).map
          (fun i => (input.drop (i * ECC_DATA_LEN)).take ECC_DATA_LEN) := by
    simp [encode_ecc, List.map_map, Function.comp]
  have hbound : input.length
      ≤ ECC_DATA_LEN * ((input.length + ECC_DATA_LEN - 1) / ECC_DATA_LEN) := by
    rw [hE]
    omega
  have hflat : (((encode_ecc par input).drop 1).map RSBuffer.data).flatten = input := by
    rw [hmap]
    exact chunksFlatten _ input hbound
  refine ⟨by simp [encode_ecc], by simp [encode_ecc], ?_, hmap, ?_, hflat, ?_, ?_⟩
  · intro b hb
    simp only [encode_ecc, List.mem_cons, List.mem_map, List.mem_range] at hb
    rcases hb with h | ⟨i, _, h⟩ <;> subst h <;> simp [Hpar, hC]
  · intro i hi
    simp only [List.length_take, List.length_drop]
    rw [hE] at hi ⊢
    omega
  · have := congrArg List.length hflat
    simpa [List.length_flatten, List.map_map, Function.comp] using this
  · intro m hm hlen
    rw [hE] at hlen ⊢
    omega

/-- Witness for C5 at a payload whose length is an exact multiple of 223
(446 = 2·223 bytes): three blocks in all (header plus two data blocks),
and the data regions reassemble the payload. -/
theorem C5_encode_ecc_framing_witness :
    (encode_ecc (fun _ => List.replicate 32 0) (List.replicate 446 7)).length = 3 ∧
    (((encode_ecc (fun _ => List.replicate 32 0) (List.replicate 446 7)).drop 1).map
        RSBuffer.data).flatten = List.replicate 446 7 := by
  constructor
  · exact ((C5_encode_ecc_framing (fun _ => List.replicate 32 0) (fun _ => rfl)
      (List.replicate 446 7)).1).trans (by decide)
  · exact (C5_encode_ecc_framing (fun _ => List.replicate 32 0) (fun _ => rfl)
      (List.replicate 446 7)).2.2.2.2.2.1

/-! ### C2 — capacity check granularity (code bug)

The source's capacity check (`lib.rs` line 38) is
`width * height < ECC_BLOCK_LEN * blocks.len()` — a *byte*-based
overestimate-per-block count, not the `total_bytes * 8` bit count the spec
requires.  The first conjunct characterizes the code's behaviour exactly:
`InsufficientCapacity` fires *iff* the pixel count is below
`ECC_BLOCK_LEN * blocks.len()` (every other failure of the embedding fold
is the out-of-bounds pixel panic).  On a 15×17 carrier (255 pixels) with
the empty payload the block set needs `320` bit-slots, so the claim
requires `InsufficientCapacity`; the code's check passes (`255 < 255` is
false) and embedding then panics out of bounds at bit 255 of the header. -/

/-- C2: `encode_img_inner` fails with `insufficientCapacity` exactly when
`W * H < ECC_BLOCK_LEN * blocks.len()` — a byte-count comparison, not the
bit-count the claim states; and at the failing input (15×17 carrier, empty
payload) the required bit-slot count is 320 > 255 pixels, yet the source's
check does not fire and `encode_img_inner` instead dies with an
out-of-bounds pixel access. -/
theorem C2_capacity_check_is_byte_based :
    (∀ (par : List Nat → List Nat) (img : Img) (W H : Nat) (input : List Nat),
      encode_img_inner par img W H input = .error .insufficientCapacity
        ↔ W * H < ECC_BLOCK_LEN * (encode_ecc par input).length) ∧
    totalBits (encode_ecc (fun _ => List.replicate 32 0) []) = 320 ∧
    15 * 17 < totalBits (encode_ecc (fun _ => List.replicate 32 0) []) ∧
    ¬ 15 * 17 < ECC_BLOCK_LEN * (encode_ecc (fun _ => List.replicate 32 0) []).length ∧
    encode_img_inner (fun _ => List.replicate 32 0)
        (List.replicate 255 (List.replicate 4 0)) 15 17 []
      = .error .pixelOutOfBounds := by
  refine ⟨?_, by decide, by decide, by decide, by decide⟩
  intro par img W H input
  constructor
  · intro h
    by_cases hc : W * H < ECC_BLOCK_LEN * (encode_ecc par input).length
    · exact hc
    · simp only [encode_img_inner] at h
      rw [if_neg hc] at h
      rw [show (encode_ecc par input).enum
          = List.enumFrom 0 (encode_ecc par input) from rfl] at h
      exact absurd (encodeFold_error_oob W H
          (W * H / (encode_ecc par input).length) (encode_ecc par input) 0 img
          .insufficientCapacity h)
        (fun hcon => StegError.noConfusion hcon)
  · intro h
    simp only [encode_img_inner]
    rw [if_pos h]

/-! ### C3 — "insufficient space never discovered mid-write" (code bug)

Because the capacity check undercounts (bytes, not bits), it can pass on a
carrier that is too small, and the shortage is then discovered *during*
embedding as an out-of-bounds pixel access — on a 16×16 carrier (256
pixels) with the empty payload, 256 of the 320 header bits are written
before the panic. -/

/-- C3: on a 16×16 carrier with the empty payload the capacity validation
passes, yet `encode_img_inner` fails with an out-of-bounds pixel access in
the middle of embedding. -/
theorem C3_oob_discovered_mid_write :
    ¬ 16 * 16 < ECC_BLOCK_LEN * (encode_ecc (fun _ => List.replicate 32 0) []).length ∧
    encode_img_inner (fun _ => List.replicate 32 0)
        (List.replicate 256 (List.replicate 4 0)) 16 16 []
      = .error .pixelOutOfBounds := by
  refine ⟨by decide, by decide⟩

/-! ### C10 — the wasm wrappers unwrap the inner result -/

/-- C10: `encode_img` / `decode_img` return a value exactly when the inner
operation succeeds, and panic (modelled as `none`) exactly when the inner
operation fails; only the inner operations return errors as values. -/
theorem C10_wasm_wrappers_unwrap (par : List Nat → List Nat)
    (correct : List Nat → Except StegError (List Nat))
    (img : Img) (W H : Nat) (input : List Nat) :
    ((encode_img par img W H input = none
        ↔ (encode_img_inner par img W H input).isOk = false) ∧
      (∀ v, encode_img par img W H input = some v
        ↔ encode_img_inner par img W H input = .ok v)) ∧
    ((decode_img correct img W H = none
        ↔ (decode_img_inner correct img W H).isOk = false) ∧
      (∀ v, decode_img correct img W H = some v
        ↔ decode_img_inner correct img W H = .ok v)) := by
  constructor
  · cases h : encode_img_inner par img W H input <;>
      simp [encode_img, h, Except.toOption, Except.isOk, Except.toBool]
  · cases h : decode_img_inner correct img W H <;>
      simp [decode_img, h, Except.toOption, Except.isOk, Except.toBool]

/-- A succeeding `Except` computation returns the value its `toOption`
carries (used by witnesses to name a concretely computed image). -/
theorem ok_toOption {ε α : Type} (e : Except ε α) (d : α) (h : e.isOk = true) :
    e = .ok (e.toOption.getD d) := by
  cases e with
  | error a => simp [Except.isOk, Except.toBool] at h
  | ok a => rfl

/-! ### C6 — header block contents and decode's derived layout -/

/-- C6: the header block's data region is the 8-byte little-endian payload
length with the 32 parity bytes appended (40 bytes in all); on a carrier
produced by a fitting encode, the decoder's header phase — correcting the
first `(8+32)*8` embedded bit-slots — recovers exactly the payload length,
and the `num_blocks` and `block_region_size` it derives from that length
(`ceil(len/223)` and `W*H/(num_blocks+1)`) coincide with the partition the
encoder used (`W*H / blocks.len()`). -/
theorem C6_header_and_layout (par : List Nat → List Nat)
    (HparL : ∀ d, (par d).length = ECC_CODE_LEN)
    (HparB : ∀ d, ∀ v ∈ par d, v < 256)
    (img : Img) (W H : Nat) (input : List Nat)
    (hg : GoodImg W H img) (Hin : ∀ v ∈ input, v < 256)
    (HL : input.length < 2 ^ 64)
    (Hfit : ∀ b ∈ encode_ecc par input,
      b.bits ≤ W * H / (encode_ecc par input).length) :
    (encode_ecc par input).head?
        = some ⟨u64le input.length, par (u64le input.length)⟩ ∧
    (u64le input.length).length = USIZE_SIZE ∧
    (u64le input.length ++ par (u64le input.length)).length
        = USIZE_SIZE + ECC_CODE_LEN ∧
    (∀ img', encode_img_inner par img W H input = .ok img' →
      readHeaderLen (parityCheckCorrect par) img' W H = .ok input.length) ∧
    (input.length + ECC_DATA_LEN - 1) / ECC_DATA_LEN + 1
        = (encode_ecc par input).length ∧
    W * H / ((input.length + ECC_DATA_LEN - 1) / ECC_DATA_LEN + 1)
        = W * H / (encode_ecc par input).length := by
  refine ⟨by simp [encode_ecc], leBytes_length 8 _, ?_, ?_, ?_, ?_⟩
  · simp [u64le, leBytes_length, HparL, USIZE_SIZE]
  · intro img' henc
    exact (round_trip_core par HparL HparB img W H input hg Hin HL Hfit
      img' henc).1
  · exact (encode_ecc_length par input).symm
  · rw [encode_ecc_length par input]

set_option maxHeartbeats 1000000 in
/-- Witness for C6 on the 20×16 empty-payload instance: the decoder's
header phase on the encoded carrier returns the payload length 0. -/
theorem C6_header_and_layout_witness :
    readHeaderLen (parityCheckCorrect (fun _ => List.replicate 32 0))
      ((encode_img_inner (fun _ => List.replicate 32 0)
        (List.replicate 320 (List.replicate 4 0)) 20 16 []).toOption.getD [])
      20 16 = .ok 0 :=
  (C6_header_and_layout (fun _ => List.replicate 32 0) (fun _ => rfl)
    (fun _ v hv => by
      rcases List.eq_of_mem_replicate hv with rfl
      norm_num)
    (List.replicate 320 (List.replicate 4 0)) 20 16 []
    (by refine ⟨by decide, ?_, ?_⟩ <;> decide)
    (by decide) (by decide) (by decide)).2.2.2.1
    ((encode_img_inner (fun _ => List.replicate 32 0)
      (List.replicate 320 (List.replicate 4 0)) 20 16 []).toOption.getD [])
    (ok_toOption _ [] (by decide))

theorem blockBits_eq_bytes (b : RSBuffer) : b.bits = 8 * b.bytes.length := by
  simp [RSBuffer.bits, RSBuffer.bytes]

/-- All bytes of every block of a block set are bytes (`< 256`), for a
byte payload and byte-valued parity. -/
theorem encode_ecc_bytes_lt (par : List Nat → List Nat)
    (HparB : ∀ d, ∀ v ∈ par d, v < 256) (input : List Nat)
    (Hin : ∀ v ∈ input, v < 256) (m : Nat)
    (hm : m < (encode_ecc par input).length) :
    ∀ v ∈ ((encode_ecc par input).getD m ⟨[], []⟩).bytes, v < 256 := by
  intro v hv
  match m with
  | 0 =>
    rw [show (encode_ecc par input).getD 0 ⟨[], []⟩
        = ⟨u64le input.length, par (u64le input.length)⟩ from by simp [encode_ecc]]
        at hv
    rcases List.mem_append.mp hv with h | h
    · exact leBytes_lt 8 _ v h
    · exact HparB _ v h
  | k + 1 =>
    rw [encode_ecc_length] at hm
    rw [encode_ecc_getD_succ par input k (by omega)] at hv
    rcases List.mem_append.mp hv with h | h
    · exact Hin v (List.mem_of_mem_drop (List.mem_of_mem_take h))
    · exact HparB _ v h

/-! ### C7 — the placement rule (corrected)

As stated the claim is false: an encode can succeed while a block's bits
overflow its region into the trailing remainder (and, in general, into
the next region).  The counterexample below exhibits this on a 5×131
carrier (655 pixels) with a 9-byte payload: the block set has 2 blocks,
`region_size = 655 / 2 = 327`, and the data block occupies 328 bit-slots
`327..654`, so encode succeeds (the last write is to flat offset 654,
which is in bounds) yet the trailing remainder pixel at offset
`654 = 2 * 327` — past `len(blocks) * region_size` — is modified.  The
amended claim adds the per-block fit condition
`block.bits ≤ region_size`, under which the placement rule holds in
full. -/

/-- C7 (amended): for an encode in which every block fits its region
(`block.bits ≤ region_size`), the flat pixel index space is partitioned
into contiguous regions of `region_size = W*H / len(blocks)` starting at
`k * region_size`; bit `j` of block `k` is written into the LSB of channel
`j mod 3` of the pixel `((k*region_size + j) mod W, (k*region_size + j) div W)`
(flat index `y*W + x`); the trailing remainder pixels past
`len(blocks) * region_size` are untouched in every channel; and the
decoder's extraction loop over the same offsets (`readBits` starting at
`k * region_size`) recomputes exactly block `k`'s bytes. -/
theorem C7_placement (par : List Nat → List Nat)
    (HparL : ∀ d, (par d).length = ECC_CODE_LEN)
    (HparB : ∀ d, ∀ v ∈ par d, v < 256)
    (img : Img) (W H : Nat) (input : List Nat)
    (hg : GoodImg W H img) (Hin : ∀ v ∈ input, v < 256)
    (Hfit : ∀ b ∈ encode_ecc par input,
      b.bits ≤ W * H / (encode_ecc par input).length) :
    ∀ img', encode_img_inner par img W H input = .ok img' →
      (∀ m, m < (encode_ecc par input).length →
        ∀ t, t < ((encode_ecc par input).getD m ⟨[], []⟩).bits →
          chanAt img'
              ((m * (W * H / (encode_ecc par input).length) + t) / W * W
                + (m * (W * H / (encode_ecc par input).length) + t) % W)
              (t % 3) &&& 1
            = byteBit ((encode_ecc par input).getD m ⟨[], []⟩).bytes t) ∧
      (∀ off c, (encode_ecc par input).length
            * (W * H / (encode_ecc par input).length) ≤ off →
        chanAt img' off c = chanAt img off c) ∧
      (∀ m, m < (encode_ecc par input).length →
        readBits W H img' (m * (W * H / (encode_ecc par input).length)) 0
            (8 * ((encode_ecc par input).getD m ⟨[], []⟩).bytes.length)
            (List.replicate ((encode_ecc par input).getD m ⟨[], []⟩).bytes.length 0, 0)
          = .ok (((encode_ecc par input).getD m ⟨[], []⟩).bytes,
              8 * ((encode_ecc par input).getD m ⟨[], []⟩).bytes.length % 3)) := by
  intro img' henc
  obtain ⟨img2, heq, hg', hframe, hwrites⟩ :=
    encode_img_inner_spec par HparL img W H input hg Hfit
  have himg : img' = img2 := by
    rw [henc] at heq
    exact (Except.ok.injEq _ _).mp heq
  subst himg
  have hhdrbits : ((encode_ecc par input).getD 0 ⟨[], []⟩).bits = 320 :=
    encode_ecc_head_bits par HparL input
  have hpos : 0 < (encode_ecc par input).length := by
    rw [encode_ecc_length]
    exact Nat.succ_pos _
  have hheadfit : 320 ≤ W * H / (encode_ecc par input).length := by
    rw [← hhdrbits]
    apply Hfit
    rw [List.getD_eq_getElem _ _ hpos]
    exact List.getElem_mem hpos
  have hW : 0 < W := by
    by_contra hcon
    have hw0 : W = 0 := by omega
    rw [hw0] at hheadfit
    simp at hheadfit
  have hMrs : (encode_ecc par input).length
      * (W * H / (encode_ecc par input).length) ≤ W * H := by
    rw [Nat.mul_comm]
    exact Nat.div_mul_le_self _ _
  have hfitm : ∀ m, m < (encode_ecc par input).length →
      ((encode_ecc par input).getD m ⟨[], []⟩).bits
        ≤ W * H / (encode_ecc par input).length := by
    intro m hm
    apply Hfit
    rw [List.getD_eq_getElem _ _ hm]
    exact List.getElem_mem hm
  have hboundm : ∀ m, m < (encode_ecc par input).length →
      m * (W * H / (encode_ecc par input).length)
        + ((encode_ecc par input).getD m ⟨[], []⟩).bits ≤ W * H := by
    intro m hm
    have h1 := hfitm m hm
    have h2 : (m + 1) * (W * H / (encode_ecc par input).length)
        = m * (W * H / (encode_ecc par input).length)
          + W * H / (encode_ecc par input).length := by
      rw [Nat.add_mul, Nat.one_mul]
    have h3 : (m + 1) * (W * H / (encode_ecc par input).length)
        ≤ (encode_ecc par input).length * (W * H / (encode_ecc par input).length) :=
      Nat.mul_le_mul_right _ (by omega)
    omega
  have hslots : ∀ m, m < (encode_ecc par input).length →
      ∀ t, t < ((encode_ecc par input).getD m ⟨[], []⟩).bits →
      chanAt img' (m * (W * H / (encode_ecc par input).length) + t) (t % 3) &&& 1
        = byteBit ((encode_ecc par input).getD m ⟨[], []⟩).bytes t := by
    intro m hm t ht
    rw [hwrites m hm t ht]
    refine (lsb_facts _ (hg.chanAt_lt W H img _ (t % 3) ?_ (by omega)) _
      (byteBit_le_one _ _)).1
    have := hboundm m hm
    omega
  refine ⟨?_, ?_, ?_⟩
  · intro m hm t ht
    have hflat : (m * (W * H / (encode_ecc par input).length) + t) / W * W
        + (m * (W * H / (encode_ecc par input).length) + t) % W
        = m * (W * H / (encode_ecc par input).length) + t := by
      have h0 := Nat.div_add_mod
        (m * (W * H / (encode_ecc par input).length) + t) W
      rw [Nat.mul_comm ((m * (W * H / (encode_ecc par input).length) + t) / W) W]
      omega
    rw [hflat]
    exact hslots m hm t ht
  · intro off c hoff
    apply hframe
    intro m hm t ht
    intro ⟨hidx, _⟩
    have h1 := hfitm m hm
    have h2 : (m + 1) * (W * H / (encode_ecc par input).length)
        = m * (W * H / (encode_ecc par input).length)
          + W * H / (encode_ecc par input).length := by
      rw [Nat.add_mul, Nat.one_mul]
    have h3 : (m + 1) * (W * H / (encode_ecc par input).length)
        ≤ (encode_ecc par input).length * (W * H / (encode_ecc par input).length) :=
      Nat.mul_le_mul_right _ (by omega)
    omega
  · intro m hm
    apply readBits_block W H img'
      (m * (W * H / (encode_ecc par input).length))
      ((encode_ecc par input).getD m ⟨[], []⟩).bytes
      (encode_ecc_bytes_lt par HparB input Hin m hm) hW
    · rw [← blockBits_eq_bytes]
      exact hboundm m hm
    · intro t ht
      rw [← blockBits_eq_bytes] at ht
      exact hslots m hm t ht

set_option maxHeartbeats 1000000 in
/-- Witness for C7 on the 20×16 empty-payload instance: the decoder-side
extraction of region 0 of the encoded carrier returns the header block's
bytes (the 8-byte little-endian length 0 followed by the 32 parity
bytes). -/
theorem C7_placement_witness :
    readBits 20 16
      ((encode_img_inner (fun _ => List.replicate 32 0)
        (List.replicate 320 (List.replicate 4 0)) 20 16 []).toOption.getD [])
      (0 * (20 * 16 / (encode_ecc (fun _ => List.replicate 32 0) []).length)) 0
      (8 * ((encode_ecc (fun _ => List.replicate 32 0) []).getD 0
        ⟨[], []⟩).bytes.length)
      (List.replicate ((encode_ecc (fun _ => List.replicate 32 0) []).getD 0
        ⟨[], []⟩).bytes.length 0, 0)
      = .ok (((encode_ecc (fun _ => List.replicate 32 0) []).getD 0 ⟨[], []⟩).bytes,
          8 * ((encode_ecc (fun _ => List.replicate 32 0) []).getD 0
            ⟨[], []⟩).bytes.length % 3) :=
  (C7_placement (fun _ => List.replicate 32 0) (fun _ => rfl)
    (fun _ v hv => by
      rcases List.eq_of_mem_replicate hv with rfl
      norm_num)
    (List.replicate 320 (List.replicate 4 0)) 20 16 []
    (by refine ⟨by decide, ?_, ?_⟩ <;> decide)
    (by decide) (by decide)
    ((encode_img_inner (fun _ => List.replicate 32 0)
      (List.replicate 320 (List.replicate 4 0)) 20 16 []).toOption.getD [])
    (ok_toOption _ [] (by decide))).2.2 0 (by decide)

set_option maxHeartbeats 1000000 in
/-- Counterexample to C7 as stated: on a 5×131 carrier (655 pixels, all
channels 255) with a 9-byte payload, `encode_img_inner` succeeds, flat
offset 654 lies past `len(blocks) * region_size = 2 * 327 = 654` (a
trailing remainder pixel, still inside the 655-pixel carrier), yet
channel 0 of that pixel is modified by the encode — the trailing
remainder pixels are not unused. -/
theorem C7_counterexample :
    (encode_img_inner (fun _ => List.replicate 32 0)
        (List.replicate 655 (List.replicate 4 255)) 5 131
        (List.replicate 9 0)).isOk = true ∧
    (encode_ecc (fun _ => List.replicate 32 0) (List.replicate 9 0)).length
        * (5 * 131 / (encode_ecc (fun _ => List.replicate 32 0)
            (List.replicate 9 0)).length) ≤ 654 ∧
    654 < 5 * 131 ∧
    chanAt ((encode_img_inner (fun _ => List.replicate 32 0)
        (List.replicate 655 (List.replicate 4 255)) 5 131
        (List.replicate 9 0)).toOption.getD []) 654 0
      ≠ chanAt (List.replicate 655 (List.replicate 4 255)) 654 0 := by
  refine ⟨by decide, by decide, by decide, by decide⟩

/-! ### C8 — non-destructive LSB embedding -/

/-- C8: on every carrier channel, a successful encode changes at most the
least-significant bit — every channel value of the output differs from the
original by at most 1 and has the same higher bits (`/ 2` unchanged);
channels beyond the first three (the alpha channel, index 3) are
bit-identical to the original; and every pixel-channel slot that is not
assigned a bit by the placement rule is bit-identical to the original.
This holds for *every* successful encode on a well-formed RGBA carrier,
with no fit hypothesis: blocks whose bits overflow their region still only
ever apply LSB overwrites at slots of the placement pattern. -/
theorem C8_lsb_only (par : List Nat → List Nat)
    (img : Img) (W H : Nat) (input : List Nat)
    (hg : GoodImg W H img) :
    ∀ img', encode_img_inner par img W H input = .ok img' →
      (∀ idx c, idx < W * H → c < 4 →
        chanAt img' idx c / 2 = chanAt img idx c / 2 ∧
        chanAt img' idx c ≤ chanAt img idx c + 1 ∧
        chanAt img idx c ≤ chanAt img' idx c + 1) ∧
      (∀ idx c, 3 ≤ c → chanAt img' idx c = chanAt img idx c) ∧
      (∀ idx c,
        (∀ m, m < (encode_ecc par input).length →
          ∀ t, t < ((encode_ecc par input).getD m ⟨[], []⟩).bits →
          ¬(idx = m * (W * H / (encode_ecc par input).length) + t ∧ c = t % 3)) →
        chanAt img' idx c = chanAt img idx c) := by
  intro img' henc
  have hchk : ¬ (W * H < ECC_BLOCK_LEN * (encode_ecc par input).length) := by
    intro hc
    simp only [encode_img_inner] at henc
    rw [if_pos hc] at henc
    exact absurd henc (by simp)
  have hfold : (List.enumFrom 0 (encode_ecc par input)).foldlM
      (fun im p => writeBlock W H p.2
        (p.1 * (W * H / (encode_ecc par input).length)) im) img = .ok img' := by
    simp only [encode_img_inner] at henc
    rw [if_neg hchk] at henc
    rw [show (encode_ecc par input).enum
        = List.enumFrom 0 (encode_ecc par input) from rfl] at henc
    exact henc
  obtain ⟨hg', hrel⟩ := encodeFold_ok_rel W H (W * H / (encode_ecc par input).length)
    (encode_ecc par input) 0 img img' hg hfold
  refine ⟨?_, ?_, ?_⟩
  · intro idx c _ _
    rcases hrel idx c with h | ⟨_, bit, hbit, hv⟩
    · rw [h]
      exact ⟨rfl, by omega, by omega⟩
    · have hx := GoodImg.chanAt_lt_all W H img hg idx c
      have hf := lsb_facts _ hx _ hbit
      rw [hv]
      exact ⟨hf.2.2.2.1, hf.2.2.2.2.2, hf.2.2.2.2.1⟩
  · intro idx c hc
    rcases hrel idx c with h | ⟨⟨m, hm, t, ht, hidx, hcc⟩, _⟩
    · exact h
    · exact absurd hcc (by omega)
  · intro idx c hnot
    rcases hrel idx c with h | ⟨⟨m, hm, t, ht, hidx, hcc⟩, _⟩
    · exact h
    · rw [Nat.zero_add] at hidx
      exact absurd ⟨hidx, hcc⟩ (hnot m hm t ht)

set_option maxHeartbeats 1000000 in
/-- Witness for C8 on a successful encode whose data block overflows its
region (5×131 carrier, all channels 255, 9-byte payload — the fit
condition of C1/C7 fails here, yet encode succeeds): the alpha channel of
pixel 654 of the encoded carrier equals the original, and channel 0 of
pixel 654 keeps its higher bits. -/
theorem C8_lsb_only_witness :
    chanAt ((encode_img_inner (fun _ => List.replicate 32 0)
        (List.replicate 655 (List.replicate 4 255)) 5 131
        (List.replicate 9 0)).toOption.getD [])
      654 3
      = chanAt (List.replicate 655 (List.replicate 4 255)) 654 3 ∧
    chanAt ((encode_img_inner (fun _ => List.replicate 32 0)
        (List.replicate 655 (List.replicate 4 255)) 5 131
        (List.replicate 9 0)).toOption.getD [])
      654 0 / 2
      = chanAt (List.replicate 655 (List.replicate 4 255)) 654 0 / 2 := by
  have h := C8_lsb_only (fun _ => List.replicate 32 0)
    (List.replicate 655 (List.replicate 4 255)) 5 131 (List.replicate 9 0)
    (by refine ⟨by decide, ?_, ?_⟩ <;> decide)
    ((encode_img_inner (fun _ => List.replicate 32 0)
      (List.replicate 655 (List.replicate 4 255)) 5 131
      (List.replicate 9 0)).toOption.getD [])
    (ok_toOption _ [] (by decide))
  exact ⟨h.2.1 654 3 (by omega), (h.1 654 0 (by decide) (by decide)).1⟩

/-! ### C4 — blockwise correction is independent and all-or-nothing -/

theorem decode_ecc_fold_ok (f : List Nat → Except StegError (List Nat)) :
    ∀ (sent received : List (List Nat)) (acc : List Nat),
      received.length = sent.length →
      (∀ p ∈ sent.zip received, f p.2 = .ok p.1) →
      received.foldlM (fun buf b => (f b).map (fun d => buf ++ d)) acc
        = .ok (acc ++ sent.flatten) := by
  intro sent
  induction sent with
  | nil =>
    intro received acc hlen _
    rw [List.length_eq_zero.mp hlen]
    simp [pure, Except.pure]
  | cons s ss ih =>
    intro received acc hlen hf
    cases received with
    | nil => simp at hlen
    | cons r rs =>
      have hhead : f r = .ok s := hf (s, r) (by simp)
      rw [List.foldlM_cons, hhead]
      show ((Except.ok (acc ++ s)).bind fun a =>
        rs.foldlM (fun buf b => (f b).map (fun d => buf ++ d)) a) = _
      rw [Except.bind]
      rw [ih rs (acc ++ s) (by simpa using hlen)
        (fun p hp => hf p (by simp [hp]))]
      simp

theorem decode_ecc_fold_err (f : List Nat → Except StegError (List Nat)) :
    ∀ (blocks : List (List Nat)) (acc : List Nat),
      (∀ b ∈ blocks, (f b).isOk = true ∨ f b = .error .corruptedBlock) →
      (∃ b ∈ blocks, (f b).isOk = false) →
      blocks.foldlM (fun buf b => (f b).map (fun d => buf ++ d)) acc
        = .error .corruptedBlock := by
  intro blocks
  induction blocks with
  | nil =>
    intro acc _ hex
    simp at hex
  | cons b bs ih =>
    intro acc hshape hex
    rcases hshape b (by simp) with hok | herr
    · obtain ⟨v, hv⟩ : ∃ v, f b = .ok v := by
        cases h : f b with
        | error e => rw [h] at hok; simp [Except.isOk, Except.toBool] at hok
        | ok v => exact ⟨v, rfl⟩
      rw [List.foldlM_cons, hv]
      show ((Except.ok (acc ++ v)).bind fun a =>
        bs.foldlM (fun buf b => (f b).map (fun d => buf ++ d)) a) = _
      rw [Except.bind]
      apply ih
      · intro b' hb'
        exact hshape b' (by simp [hb'])
      · obtain ⟨b', hb', hfail⟩ := hex
        rcases List.mem_cons.mp hb' with rfl | h
        · rw [hv] at hfail
          simp [Except.isOk, Except.toBool] at hfail
        · exact ⟨b', h, hfail⟩
    · rw [List.foldlM_cons, herr]
      rfl

/-- C4: with the external corrector modelled by its contract — any
corrector `f` that repairs a received block within `⌊parity_len/2⌋ =
⌊32/2⌋ = 16` corrupted bytes of the sent codeword — `decode_ecc` corrects
each block independently and returns the concatenated corrected data; and
whenever any single block fails to correct (the corrector's only failure
being `corruptedBlock`), the whole decode returns `corruptedBlock` and no
partially-assembled payload, even when every other block is intact. -/
theorem C4_blockwise_all_or_nothing :
    (∀ (enc : List Nat → List Nat) (f : List Nat → Except StegError (List Nat))
        (sent received : List (List Nat)),
      received.length = sent.length →
      (∀ p ∈ sent.zip received,
        byteDiff (enc p.1) p.2 ≤ ECC_CODE_LEN / 2 ∧ p.2.length = (enc p.1).length) →
      (∀ p ∈ sent.zip received,
        byteDiff (enc p.1) p.2 ≤ ECC_CODE_LEN / 2 → p.2.length = (enc p.1).length →
        f p.2 = .ok p.1) →
      decode_ecc f received = .ok sent.flatten) ∧
    (∀ (f : List Nat → Except StegError (List Nat)) (blocks : List (List Nat)),
      (∀ b ∈ blocks, (f b).isOk = true ∨ f b = .error .corruptedBlock) →
      (∃ b ∈ blocks, (f b).isOk = false) →
      decode_ecc f blocks = .error .corruptedBlock) := by
  constructor
  · intro enc f sent received hlen hcorr hf
    rw [decode_ecc]
    rw [decode_ecc_fold_ok f sent received [] hlen
      (fun p hp => hf p hp (hcorr p hp).1 (hcorr p hp).2)]
    simp
  · intro f blocks hshape hex
    exact decode_ecc_fold_err f blocks [] hshape hex

/-- Witness for C4 with a concrete majority corrector for a 1-byte
systematic repetition code (32 parity bytes): a block with 16 of its 33
bytes corrupted still decodes to its data byte, and a block set whose
second block has 17 disagreeing bytes (beyond the 16-byte capability)
makes the whole decode fail with `corruptedBlock` although the first block
is intact. -/
theorem C4_blockwise_all_or_nothing_witness :
    decode_ecc repDecode [List.replicate 17 5 ++ List.replicate 16 7] = .ok [5] ∧
    decode_ecc repDecode
        [List.replicate 33 9,
          List.replicate 16 1 ++ List.replicate 16 2 ++ [3]]
      = .error .corruptedBlock := by
  constructor
  · exact C4_blockwise_all_or_nothing.1
      (fun d => d ++ List.replicate 32 (d.headD 0)) repDecode
      [[5]] [List.replicate 17 5 ++ List.replicate 16 7]
      (by decide) (by decide) (by decide)
  · exact C4_blockwise_all_or_nothing.2 repDecode
      [List.replicate 33 9, List.replicate 16 1 ++ List.replicate 16 2 ++ [3]]
      (by decide) (by decide)

/-! ### C9 — the spiral index mapper is a bijection -/

theorem ringList_mem (w h x y : Nat) :
    (x, y) ∈ ringList w h
      ↔ (x ≤ w + 1 ∧ y ≤ h + 1 ∧ (x = 0 ∨ x = w + 1 ∨ y = 0 ∨ y = h + 1)) := by
  simp only [ringList, List.mem_append, List.mem_map, List.mem_range, Prod.mk.injEq]
  constructor
  · rintro (⟨t, ht, h1, h2⟩ | ⟨t, ht, h1, h2⟩ | ⟨t, ht, h1, h2⟩ | ⟨t, ht, h1, h2⟩) <;>
      omega
  · rintro ⟨hx, hy, hc⟩
    by_cases hx0 : x = 0
    · exact Or.inl ⟨y, by omega, by omega, rfl⟩
    by_cases hyb : y = h + 1
    · exact Or.inr (Or.inl ⟨x - 1, by omega, by omega, by omega⟩)
    by_cases hxr : x = w + 1
    · exact Or.inr (Or.inr (Or.inl ⟨h - y, by omega, by omega, by omega⟩))
    · have hy0 : y = 0 := by omega
      exact Or.inr (Or.inr (Or.inr ⟨w - x, by omega, by omega, by omega⟩))

theorem ringList_nodup (w h : Nat) : (ringList w h).Nodup := by
  have hseg : ∀ (n : Nat) (f : Nat → Nat × Nat),
      (∀ a, a < n → ∀ b, b < n → f a = f b → a = b) →
      ((List.range n).map f).Nodup := by
    intro n f hf
    exact List.Nodup.map_on
      (fun a ha b hb hab => hf a (List.mem_range.mp ha) b (List.mem_range.mp hb) hab)
      (List.nodup_range n)
  have hinj : ∀ a c : Nat × Nat, a = c → a.1 = c.1 ∧ a.2 = c.2 := by
    rintro a c rfl
    exact ⟨rfl, rfl⟩
  simp only [ringList, List.nodup_append]
  refine ⟨hseg _ _ ?_, ⟨hseg _ _ ?_, ⟨hseg _ _ ?_, hseg _ _ ?_, ?_⟩, ?_⟩, ?_⟩
  · intro a _ b _ hab
    exact (hinj _ _ hab).2
  · intro a _ b _ hab
    have := (hinj _ _ hab).1
    omega
  · intro a ha b hb hab
    have := (hinj _ _ hab).2
    omega
  · intro a ha b hb hab
    have := (hinj _ _ hab).1
    omega
  · rintro ⟨x, y⟩ hp hq
    simp only [List.mem_map, List.mem_range, Prod.mk.injEq] at hp hq
    obtain ⟨t, ht, h1, h2⟩ := hp
    obtain ⟨s, hs, h3, h4⟩ := hq
    omega
  · rintro ⟨x, y⟩ hp hq
    simp only [List.mem_append, List.mem_map, List.mem_range, Prod.mk.injEq] at hp hq
    obtain ⟨t, ht, h1, h2⟩ := hp
    rcases hq with ⟨s, hs, h3, h4⟩ | ⟨s, hs, h3, h4⟩ <;> omega
  · rintro ⟨x, y⟩ hp hq
    simp only [List.mem_append, List.mem_map, List.mem_range, Prod.mk.injEq] at hp hq
    obtain ⟨t, ht, h1, h2⟩ := hp
    rcases hq with ⟨s, hs, h3, h4⟩ | ⟨s, hs, h3, h4⟩ | ⟨s, hs, h3, h4⟩ <;> omega

theorem spiralList_length (W H : Nat) : (spiralList W H).length = W * H := by
  induction W, H using spiralList.induct with
  | case1 H => simp [spiralList]
  | case2 w => simp [spiralList]
  | case3 h => simp [spiralList]
  | case4 w => simp [spiralList]
  | case5 w h ih =>
    simp only [spiralList, List.length_append, List.length_map, ringList,
      List.length_range, ih, Nat.succ_eq_add_one]
    ring

theorem spiralList_mem (W H : Nat) :
    ∀ x y, ((x, y) ∈ spiralList W H) ↔ (x < W ∧ y < H) := by
  induction W, H using spiralList.induct with
  | case1 H => intro x y; simp [spiralList]
  | case2 w => intro x y; simp [spiralList]
  | case3 h =>
    intro x y
    simp only [spiralList, List.mem_map, List.mem_range, Prod.mk.injEq]
    constructor
    · rintro ⟨t, ht, rfl, rfl⟩
      omega
    · rintro ⟨hx, hy⟩
      exact ⟨y, by omega, by omega, rfl⟩
  | case4 w =>
    intro x y
    simp only [spiralList, List.mem_map, List.mem_range, Prod.mk.injEq]
    constructor
    · rintro ⟨t, ht, rfl, rfl⟩
      omega
    · rintro ⟨hx, hy⟩
      exact ⟨x, by omega, rfl, by omega⟩
  | case5 w h ih =>
    intro x y
    simp only [spiralList, List.mem_append, ringList_mem, List.mem_map]
    constructor
    · rintro (⟨hx, hy, _⟩ | ⟨p, hp, hpe⟩)
      · omega
      · have h1 := (ih p.1 p.2).mp (by simpa using hp)
        have h2 : p.1 + 1 = x ∧ p.2 + 1 = y := by
          constructor <;> [exact congrArg Prod.fst hpe; exact congrArg Prod.snd hpe]
        omega
    · rintro ⟨hx, hy⟩
      by_cases hb : x = 0 ∨ x = w + 1 ∨ y = 0 ∨ y = h + 1
      · exact Or.inl ⟨by omega, by omega, hb⟩
      · refine Or.inr ⟨(x - 1, y - 1), (ih _ _).mpr (by omega), ?_⟩
        simp only [Prod.mk.injEq]
        omega

theorem spiralList_nodup (W H : Nat) : (spiralList W H).Nodup := by
  induction W, H using spiralList.induct with
  | case1 H => simp [spiralList]
  | case2 w => simp [spiralList]
  | case3 h =>
    simp only [spiralList]
    refine List.Nodup.map_on ?_ (List.nodup_range _)
    intro a _ b _ hab
    exact (congrArg Prod.snd hab)
  | case4 w =>
    simp only [spiralList]
    refine List.Nodup.map_on ?_ (List.nodup_range _)
    intro a _ b _ hab
    exact (congrArg Prod.fst hab)
  | case5 w h ih =>
    simp only [spiralList, List.nodup_append]
    refine ⟨ringList_nodup w h, ?_, ?_⟩
    · refine List.Nodup.map ?_ ih
      intro p q hpq
      have h1 := congrArg Prod.fst hpq
      have h2 := congrArg Prod.snd hpq
      simp only at h1 h2
      exact Prod.ext (by omega) (by omega)
    · intro p hp hq
      obtain ⟨x, y⟩ := p
      rw [ringList_mem] at hp
      simp only [List.mem_map, Prod.mk.injEq] at hq
      obtain ⟨q, hq1, hq2, hq3⟩ := hq
      have := (spiralList_mem w h q.1 q.2).mp (by simpa using hq1)
      omega

/-- C9: for every `W ≥ 1`, `H ≥ 1`, `spiral_coord W H i` is `none` exactly
when `i ≥ W*H`, every returned coordinate lies in the `W × H` rectangle,
distinct in-range indices map to distinct cells, and every cell of the
rectangle is reached by some in-range index — the restriction of
`spiral_coord W H` to `i < W*H` is a bijection onto the rectangle's cells. -/
theorem C9_spiral_coord_bijection (W H : Nat) (_hW : 1 ≤ W) (_hH : 1 ≤ H) :
    (∀ i, spiral_coord W H i = none ↔ W * H ≤ i) ∧
    (∀ i p, spiral_coord W H i = some p → p.1 < W ∧ p.2 < H) ∧
    (∀ i j p, spiral_coord W H i = some p → spiral_coord W H j = some p → i = j) ∧
    (∀ x y, x < W → y < H → ∃ i, i < W * H ∧ spiral_coord W H i = some (x, y)) := by
  refine ⟨?_, ?_, ?_, ?_⟩
  · intro i
    rw [spiral_coord, List.getElem?_eq_none_iff, spiralList_length]
  · intro i p hp
    have hmem : p ∈ spiralList W H := List.getElem?_mem hp
    obtain ⟨x, y⟩ := p
    exact (spiralList_mem W H x y).mp hmem
  · intro i j p hp hq
    rw [spiral_coord] at hp hq
    have hi : i < (spiralList W H).length := by
      by_contra hcon
      rw [List.getElem?_eq_none_iff.mpr (by omega)] at hp
      exact Option.noConfusion hp
    exact List.getElem?_inj hi (spiralList_nodup W H) (hp.trans hq.symm)
  · intro x y hx hy
    have hmem : (x, y) ∈ spiralList W H := (spiralList_mem W H x y).mpr ⟨hx, hy⟩
    obtain ⟨i, hi, hget⟩ := List.getElem_of_mem hmem
    refine ⟨i, ?_, ?_⟩
    · rw [← spiralList_length W H]
      exact hi
    · rw [spiral_coord, List.getElem?_eq_getElem hi, hget]

/-- Witness for C9 on a 3×4 grid: index 12 is out of range, and the cell
`(1, 2)` is visited by some in-range index. -/
theorem C9_spiral_coord_bijection_witness :
    (spiral_coord 3 4 12 = none) ∧
    (∃ i, i < 3 * 4 ∧ spiral_coord 3 4 i = some (1, 2)) :=
  ⟨((C9_spiral_coord_bijection 3 4 (by decide) (by decide)).1 12).mpr (by decide),
    (C9_spiral_coord_bijection 3 4 (by decide) (by decide)).2.2.2 1 2 (by decide) (by decide)⟩

end Stegasus
